import Mathlib

/-!
# go-cli-notes — verification of the note graph & content engine

Shallow embedding of the core of the `momokii/go-cli-notes` repository:
the wiki-link parser and title normalizer (`internal/util`, link-parser part),
the note / tag / link / activity repositories (`internal/repository` and the
SQL triggers in `migrations/`), and the note / tag services
(`internal/service`).

Strings are modelled as `List Char`; positions are character indices, which
coincide with Go's byte indices on single-byte (ASCII) inputs, the fragment
the concrete scenarios use.  Timestamps and ids are `Nat`: `uuid.New()` is
modelled by a fresh-id counter and `time.Now()` / SQL `NOW()` by a logical
clock that advances on every state-changing repository call (so successive
rows get distinct `created_at` stamps, as distinct wall-clock instants do).
All operations are sequential, matching the spec's sequential properties.
-/

/-! ## Character classes and basic string operations -/

/-- Go `unicode.IsSpace`: the Unicode White_Space code points
(U+0009–U+000D, U+0020, U+0085, U+00A0, U+1680, U+2000–U+200A,
U+2028, U+2029, U+202F, U+205F, U+3000). -/
def goIsSpace (c : Char) : Bool :=
  let n := c.toNat
  (9 ≤ n && n ≤ 13) || n = 32 || n = 0x85 || n = 0xA0 || n = 0x1680 ||
  (0x2000 ≤ n && n ≤ 0x200A) || n = 0x2028 || n = 0x2029 ||
  n = 0x202F || n = 0x205F || n = 0x3000

/-- PostgreSQL regex class `\s` (ASCII `[[:space:]]` under the default C
collation): space, tab, newline, carriage return, vertical tab, form feed. -/
def pgIsSpace (c : Char) : Bool :=
  let n := c.toNat
  n = 32 || (9 ≤ n && n ≤ 13)

theorem dropWhile_length_le (p : α → Bool) (l : List α) :
    (l.dropWhile p).length ≤ l.length := by
  induction l with
  | nil => simp
  | cons a l ih =>
    rw [List.dropWhile_cons]
    split
    · exact Nat.le_succ_of_le ih
    · exact Nat.le_refl _

/-- Go `strings.TrimSpace`: drop leading and trailing white space. -/
def trimSpace (l : List Char) : List Char :=
  ((l.dropWhile goIsSpace).reverse.dropWhile goIsSpace).reverse

/-- Accumulator loop for `fieldsBy`: `acc` holds the reversed current word. -/
def fieldsByAux (p : Char → Bool) : List Char → List Char → List (List Char)
  | [], acc => if acc = [] then [] else [acc.reverse]
  | c :: cs, acc =>
    if p c then
      if acc = [] then fieldsByAux p cs []
      else acc.reverse :: fieldsByAux p cs []
    else fieldsByAux p cs (c :: acc)

/-- Split into maximal runs of characters not satisfying `p`, dropping
separators and empty fields (the behavior of Go `strings.Fields`,
generalized over the separator class). -/
def fieldsBy (p : Char → Bool) (l : List Char) : List (List Char) :=
  fieldsByAux p l []

/-- Go `strings.Fields`. -/
def goFields (l : List Char) : List (List Char) := fieldsBy goIsSpace l

/-- Go `strings.ToLower` restricted to the code points the engine's kept
alphabet can see: ASCII upper-case letters map to lower case, every other
character is unchanged. -/
def goToLowerChar (c : Char) : Char :=
  if 65 ≤ c.toNat ∧ c.toNat ≤ 90 then Char.ofNat (c.toNat + 32) else c

/-- The character filter of `LinkParser.NormalizeTitle`: keep ASCII
lower-case letters, digits, spaces, hyphens and underscores. -/
def keepTitleChar (c : Char) : Bool :=
  (97 ≤ c.toNat && c.toNat ≤ 122) || (48 ≤ c.toNat && c.toNat ≤ 57) ||
  c = ' ' || c = '-' || c = '_'

/-- `LinkParser.NormalizeTitle` (internal/util, link-parser file):
`strings.ToLower(strings.TrimSpace(title))`, then `strings.Map` keeping
only the allowed characters, then `strings.Join(strings.Fields(title), " ")`. -/
def normalizeTitle (l : List Char) : List Char :=
  let t := ((trimSpace l).map goToLowerChar).filter keepTitleChar
  List.intercalate [' '] (goFields t)

/-! ## Word-count trigger (`migrations/20250110120002_add_word_count_triggers.sql`) -/

/-- PostgreSQL `regexp_split_to_array(l, '\s+')`: the pieces of `l` between
maximal nonempty runs of white space.  Empty pieces at the start or end of
the string (when the string begins or ends with white space) are kept,
exactly as PostgreSQL keeps them; `regexp_split_to_array('', …) = {""}`. -/
def pgSplitWs : List Char → List (List Char)
  | [] => [[]]
  | c :: cs =>
    if pgIsSpace c then
      -- a white-space character extends the run when the next character is
      -- also white space; otherwise it closes a field boundary here
      match cs with
      | c2 :: _ =>
        if pgIsSpace c2 then pgSplitWs cs else [] :: pgSplitWs cs
      | [] => [] :: pgSplitWs cs
    else
      match pgSplitWs cs with
      | f :: rest => (c :: f) :: rest
      | [] => [[c]]

/-- `calculate_note_metrics`, word-count half: `array_length` of the regex
split, with the empty-content special case forcing `0`. -/
def pgWordCount (content : List Char) : Nat :=
  if content = [] then 0 else (pgSplitWs content).length

/-- `calculate_note_metrics`, reading-time half: `0` for no words, otherwise
the ceiling division `(word_count + 199) / 200`. -/
def pgReadingTime (wc : Nat) : Nat :=
  if wc = 0 then 0 else (wc + 199) / 200

/-- The number of whitespace-delimited tokens of a string — the count the
spec asserts for `word_count` ("word count splits on whitespace runs"). -/
def specTokenCount (content : List Char) : Nat :=
  (fieldsBy pgIsSpace content).length

/-! ## Wiki-link parser (`LinkParser`, internal/util)

The Go parser uses the regular expression
`\[\[([^\]|]+)(?:\|([^\]]+))?\]\]` under Go's leftmost, non-overlapping
matching.  Because the title class excludes both `]` and `|` and the display
class excludes `]`, the regex is deterministic: at any position it has at
most one match, found by the greedy scanner below, and the overall match
list is obtained by advancing one character on failure and jumping over each
match on success — exactly `FindAllStringSubmatchIndex`. -/

/-- A character the regex allows inside `TITLE` (`[^\]|]`). -/
def titleChar (c : Char) : Bool := c != ']' && c != '|'

/-- A character the regex allows inside `DISPLAY` (`[^\]]`). -/
def displayChar (c : Char) : Bool := c != ']'

/-- Attempt to match `[[TITLE]]` or `[[TITLE|DISPLAY]]` at the head of `s`.
On success, return the consumed length, the raw title and the raw display
(the two regex capture groups). -/
def tryMatch : List Char → Option (Nat × List Char × Option (List Char))
  | c1 :: c2 :: rest =>
    if c1 = '[' ∧ c2 = '[' then
      let t := rest.takeWhile titleChar
      if t = [] then none
      else
        match rest.dropWhile titleChar with
        | c3 :: c4 :: r1 =>
          if c3 = ']' ∧ c4 = ']' then some (t.length + 4, t, none)
          else if c3 = '|' then
            let rest2 := c4 :: r1
            let d := rest2.takeWhile displayChar
            if d = [] then none
            else
              match rest2.dropWhile displayChar with
              | c5 :: c6 :: _ =>
                if c5 = ']' ∧ c6 = ']' then
                  some (t.length + d.length + 5, t, some d)
                else none
              | _ => none
          else none
        | _ => none
    else none
  | _ => none

/-- One raw regex match: absolute character positions (`start` inclusive,
`stop` exclusive) and the two capture groups. -/
structure WikiMatch where
  start : Nat
  stop : Nat
  rawTitle : List Char
  rawDisplay : Option (List Char)
deriving Repr, DecidableEq

/-- The middle part of the textual form of a match: nothing, or the display
preceded by its bar. -/
def wikiMid : Option (List Char) → List Char
  | none => []
  | some dd => '|' :: dd

/-- The textual form `[[TITLE]]` / `[[TITLE|DISPLAY]]` of a match. -/
def wikiText (t : List Char) (d : Option (List Char)) : List Char :=
  '[' :: '[' :: (t ++ wikiMid d ++ [']', ']'])

theorem takeWhile_append_all {p : Char → Bool} {l1 l2 : List Char}
    (h1 : ∀ a ∈ l1, p a = true) :
    (l1 ++ l2).takeWhile p = l1 ++ l2.takeWhile p ∧
    (l1 ++ l2).dropWhile p = l2.dropWhile p := by
  induction l1 with
  | nil => simp
  | cons a l ih =>
    have ha := h1 a (by simp)
    have ih2 := ih (fun b hb => h1 b (by simp [hb]))
    simp [List.takeWhile_cons, List.dropWhile_cons, ha, ih2.1, ih2.2]

theorem takeWhile_head_false {p : Char → Bool} {b : Char} {l2 : List Char}
    (h : p b = false) :
    (b :: l2).takeWhile p = [] ∧ (b :: l2).dropWhile p = b :: l2 := by
  simp [List.takeWhile_cons, List.dropWhile_cons, h]

/-- Soundness of the head matcher: a successful `tryMatch` consumes exactly
the well-formed wiki reference it reports. -/
theorem tryMatch_spec {s : List Char} {len : Nat} {t : List Char}
    {d : Option (List Char)} (h : tryMatch s = some (len, t, d)) :
    t ≠ [] ∧ (∀ c ∈ t, titleChar c = true) ∧
    (∀ dd, d = some dd → dd ≠ [] ∧ ∀ c ∈ dd, displayChar c = true) ∧
    len = (wikiText t d).length ∧
    s.take len = wikiText t d ∧
    5 ≤ len ∧ len ≤ s.length := by
  match s with
  | [] => exact absurd h (by simp [tryMatch])
  | [c] => exact absurd h (by simp [tryMatch])
  | c1 :: c2 :: rest =>
    by_cases hb : c1 = '[' ∧ c2 = '['
    case neg => rw [tryMatch, if_neg hb] at h; exact absurd h (by simp)
    obtain ⟨rfl, rfl⟩ := hb
    simp only [tryMatch, and_self, if_true, reduceIte] at h
    by_cases ht : rest.takeWhile titleChar = []
    case pos => rw [if_pos ht] at h; exact absurd h (by simp)
    rw [if_neg ht] at h
    have hsplit : rest.takeWhile titleChar ++ rest.dropWhile titleChar = rest :=
      List.takeWhile_append_dropWhile titleChar rest
    have htall : ∀ c ∈ rest.takeWhile titleChar, titleChar c = true :=
      fun c hc => List.mem_takeWhile_imp hc
    set T := rest.takeWhile titleChar with hT
    rcases hdrop : rest.dropWhile titleChar with _ | ⟨c3, _ | ⟨c4, r1⟩⟩ <;>
      rw [hdrop] at h <;> simp only [] at h
    · exact absurd h (by simp)
    · exact absurd h (by simp)
    by_cases h34 : c3 = ']' ∧ c4 = ']'
    · -- plain [[TITLE]]
      rw [if_pos h34] at h
      obtain ⟨rfl, rfl⟩ := h34
      simp only [Option.some_inj, Prod.mk.injEq] at h
      obtain ⟨rfl, rfl, rfl⟩ := h
      have hrest : rest = T ++ (']' :: ']' :: r1) := by
        conv_lhs => rw [← hsplit, hdrop]
      have hlen4 : T.length + 4 = (T.length + 2) + 1 + 1 := by omega
      refine ⟨ht, htall, by simp, ?_, ?_, ?_, ?_⟩
      · simp only [wikiText, wikiMid, List.length_cons, List.length_append,
          List.length_nil]
        all_goals omega
      · rw [hlen4]
        simp only [List.take_succ_cons]
        rw [hrest, List.take_append 2]
        simp [wikiText, wikiMid]
      · have := List.length_pos.mpr ht
        omega
      · have := congrArg List.length hrest
        simp only [List.length_append, List.length_cons] at this
        simp only [List.length_cons]
        omega
    rw [if_neg h34] at h
    by_cases h3 : c3 = '|'
    case neg => rw [if_neg h3] at h; exact absurd h (by simp)
    rw [if_pos h3] at h
    subst h3
    by_cases hd : (c4 :: r1).takeWhile displayChar = []
    case pos => rw [if_pos hd] at h; exact absurd h (by simp)
    rw [if_neg hd] at h
    have hsplit2 : (c4 :: r1).takeWhile displayChar ++
        (c4 :: r1).dropWhile displayChar = c4 :: r1 :=
      List.takeWhile_append_dropWhile displayChar (c4 :: r1)
    have hdall : ∀ c ∈ (c4 :: r1).takeWhile displayChar, displayChar c = true :=
      fun c hc => List.mem_takeWhile_imp hc
    set D := (c4 :: r1).takeWhile displayChar with hD
    rcases hdrop2 : (c4 :: r1).dropWhile displayChar with _ | ⟨c5, _ | ⟨c6, r2⟩⟩ <;>
      rw [hdrop2] at h <;> simp only [] at h
    · exact absurd h (by simp)
    · exact absurd h (by simp)
    by_cases h56 : c5 = ']' ∧ c6 = ']'
    case neg => rw [if_neg h56] at h; exact absurd h (by simp)
    rw [if_pos h56] at h
    obtain ⟨rfl, rfl⟩ := h56
    simp only [Option.some_inj, Prod.mk.injEq] at h
    obtain ⟨rfl, rfl, rfl⟩ := h
    have hrest2 : c4 :: r1 = D ++ (']' :: ']' :: r2) := by
      conv_lhs => rw [← hsplit2, hdrop2]
    have hrest : rest = T ++ ('|' :: (D ++ (']' :: ']' :: r2))) := by
      conv_lhs => rw [← hsplit, hdrop, hrest2]
    refine ⟨ht, htall, ?_, ?_, ?_, ?_, ?_⟩
    · rintro dd hdd
      rw [Option.some_inj] at hdd
      subst hdd
      exact ⟨hd, hdall⟩
    · simp only [wikiText, wikiMid, List.length_cons, List.length_append,
        List.length_nil]
      all_goals omega
    · have hlen5 : T.length + D.length + 5 =
          (T.length + (D.length + 3)) + 1 + 1 := by omega
      rw [hlen5]
      simp only [List.take_succ_cons]
      rw [hrest, List.take_append]
      have hlen3 : D.length + 3 = (D.length + 2) + 1 := by omega
      rw [hlen3]
      simp only [List.take_succ_cons]
      rw [List.take_append 2]
      simp [wikiText, wikiMid]
    · have := List.length_pos.mpr ht
      have := List.length_pos.mpr hd
      omega
    · have := congrArg List.length hrest
      simp only [List.length_append, List.length_cons] at this
      simp only [List.length_cons]
      omega
/-- `tryMatch` succeeds on exactly the textual form of a well-formed
reference (used to justify the code's re-parse of each matched substring). -/
theorem tryMatch_wikiText {t : List Char} {d : Option (List Char)}
    (ht : t ≠ []) (hta : ∀ c ∈ t, titleChar c = true)
    (hd : ∀ dd, d = some dd → dd ≠ [] ∧ ∀ c ∈ dd, displayChar c = true) :
    tryMatch (wikiText t d) = some ((wikiText t d).length, t, d) := by
  cases d with
  | none =>
    have hsp := @takeWhile_append_all titleChar _ [']', ']'] hta
    have hhd := @takeWhile_head_false titleChar ']' [']'] (by decide)
    simp only [wikiText, wikiMid, List.append_nil]
    simp only [tryMatch, and_self, if_true, reduceIte]
    rw [hsp.1, hsp.2, hhd.1, hhd.2]
    simp only [List.append_nil, if_neg ht, and_self, if_true, reduceIte,
      Option.some_inj, Prod.mk.injEq, List.length_cons, List.length_append,
      true_and, and_true]
    all_goals simp
  | some dd =>
    obtain ⟨hdne, hda⟩ := hd dd rfl
    have hsp := @takeWhile_append_all titleChar _
      ('|' :: (dd ++ [']', ']'])) hta
    have hhd := @takeWhile_head_false titleChar '|'
      (dd ++ [']', ']']) (by decide)
    have hsp2 := @takeWhile_append_all displayChar _ [']', ']'] hda
    have hhd2 := @takeWhile_head_false displayChar ']' [']'] (by decide)
    simp only [wikiText, wikiMid, List.append_assoc, List.cons_append]
    simp only [tryMatch, and_self, if_true, reduceIte]
    rw [hsp.1, hsp.2, hhd.1, hhd.2]
    rcases dd with _ | ⟨d0, dtl⟩
    case nil => exact absurd rfl hdne
    simp only [List.cons_append] at hsp2 ⊢
    simp only [List.append_nil, if_neg ht]
    rw [if_neg (fun hc => absurd hc.1 (by decide))]
    simp only [reduceCtorEq, reduceIte, if_true]
    rw [hsp2.1, hsp2.2, hhd2.1, hhd2.2]
    simp only [List.append_nil]
    rw [if_neg (by simp : ¬(d0 :: dtl = []))]
    simp only [and_self, if_true, reduceIte]
    simp only [Option.some_inj, Prod.mk.injEq, List.length_cons,
      List.length_append, true_and, and_true]
    all_goals simp
    all_goals omega
/-- The matching loop of `FindAllStringSubmatchIndex`: at each position, if
the pattern matches, record it and continue after the match; otherwise
advance one character.  `fuel` bounds the number of steps; every use
supplies `fuel ≥ s.length`, which is always enough since each step consumes
at least one character. -/
def scanAux (fuel : Nat) (s : List Char) (i : Nat) : List WikiMatch :=
  match fuel with
  | 0 => []
  | fuel + 1 =>
    match tryMatch s with
    | some (len, t, d) =>
      ⟨i, i + len, t, d⟩ :: scanAux fuel (s.drop len) (i + len)
    | none =>
      match s with
      | [] => []
      | _ :: s1 => scanAux fuel s1 (i + 1)

/-- All matches of the wiki-reference regex in `content`, leftmost first and
non-overlapping — the model of `p.linkPattern.FindAllStringSubmatchIndex`. -/
def findLinkMatches (content : List Char) : List WikiMatch :=
  scanAux content.length content 0

/-- The leftmost match of the regex in `s`, capture groups only — the model
of `p.linkPattern.FindStringSubmatch` as `ExtractLinks` applies it to each
matched substring. -/
def findFirst : List Char → Option (Nat × List Char × Option (List Char))
  | [] => none
  | c :: cs =>
    match tryMatch (c :: cs) with
    | some r => some r
    | none => findFirst cs

/-- The Go parser's `Link` value: trimmed title, display (defaulting to the
title), trimmed context window, and the match's start/end positions. -/
structure ParsedLink where
  title : List Char
  display : List Char
  context : List Char
  startPos : Nat
  endPos : Nat
deriving Repr, DecidableEq

/-- The loop body of `ExtractLinks` for one regex match: re-run the pattern
on the matched substring to read the capture groups (skipping the entry if
the re-parse fails, as the Go code's `len(submatches) < 2` guard does),
trim title and display (display defaults to the trimmed title), and cut the
context window 50 characters before and after the match, clamped to the
input and whitespace-trimmed. -/
def extractOne (content : List Char) (m : WikiMatch) : Option ParsedLink :=
  let fullMatch := (content.drop m.start).take (m.stop - m.start)
  match findFirst fullMatch with
  | none => none
  | some (_, st, sd) =>
    let title := trimSpace st
    let display := match sd with
      | none => title
      | some dd => trimSpace dd
    let contextStart := if m.start < 50 then 0 else m.start - 50
    let contextEnd := min (m.stop + 50) content.length
    let context := trimSpace ((content.drop contextStart).take
      (contextEnd - contextStart))
    some ⟨title, display, context, m.start, m.stop⟩

/-- `LinkParser.ExtractLinks` (internal/util, link-parser file): the empty
input short-circuits to the empty list; otherwise find all matches and run
the loop body on each. -/
def extractLinks (content : List Char) : List ParsedLink :=
  if content = [] then []
  else (findLinkMatches content).filterMap (extractOne content)

/-- The spec's description of the extracted reference for one occurrence:
title trimmed of surrounding whitespace, display defaulting to the title,
context the whitespace-trimmed substring from 50 characters before the
opening brackets to 50 after the closing brackets clamped to the input
bounds (|truncated subtraction realizes the lower clamp), and the match's
positions. -/
def specLink (content : List Char) (m : WikiMatch) : ParsedLink :=
  let title := trimSpace m.rawTitle
  { title := title
    display := (m.rawDisplay.map trimSpace).getD title
    context := trimSpace ((content.drop (m.start - 50)).take
      (min (m.stop + 50) content.length - (m.start - 50)))
    startPos := m.start
    endPos := m.stop }

/-- A reported match is a genuine occurrence: it lies inside the input, its
text is exactly `[[TITLE]]` or `[[TITLE|DISPLAY]]`, the title is nonempty
and free of `]` and `|`, and the display, when present, is nonempty and
free of `]`. -/
def MatchWf (content : List Char) (m : WikiMatch) : Prop :=
  m.start + 5 ≤ m.stop ∧ m.stop ≤ content.length ∧
  (content.drop m.start).take (m.stop - m.start) =
    wikiText m.rawTitle m.rawDisplay ∧
  m.rawTitle ≠ [] ∧ (∀ c ∈ m.rawTitle, c ≠ ']' ∧ c ≠ '|') ∧
  (∀ dd, m.rawDisplay = some dd → dd ≠ [] ∧ ∀ c ∈ dd, c ≠ ']')
theorem tryMatch_nil : tryMatch [] = none := rfl

/-- Master invariant of the scanning loop: starting at position `i` of
`content` with enough fuel, every reported match is well formed and starts
at or after `i`, matches are in occurrence order, and every position where
the pattern could match is covered by some reported match. -/
theorem scanAux_spec (content : List Char) :
    ∀ (fuel : Nat) (s : List Char) (i : Nat),
      s = content.drop i → s.length ≤ fuel →
      (∀ m ∈ scanAux fuel s i, MatchWf content m ∧ i ≤ m.start) ∧
      (scanAux fuel s i).Chain' (fun a b => a.stop ≤ b.start) ∧
      (∀ j, i ≤ j → tryMatch (content.drop j) ≠ none →
        ∃ m ∈ scanAux fuel s i, m.start ≤ j ∧ j < m.stop) := by
  intro fuel
  induction fuel with
  | zero =>
    intro s i hs hle
    have hnil : s = [] := List.length_eq_zero.mp (Nat.le_zero.mp hle)
    subst hnil
    refine ⟨by simp [scanAux], by simp [scanAux], ?_⟩
    intro j hj hne
    exfalso
    have hlen : content.length ≤ i := by
      have h0 := congrArg List.length hs
      simp only [List.length_nil, List.length_drop] at h0
      omega
    have hdj : content.drop j = [] :=
      List.drop_eq_nil_of_le (le_trans hlen hj)
    exact hne (by rw [hdj, tryMatch_nil])
  | succ fuel ih =>
    intro s i hs hle
    rcases htm : tryMatch s with _ | ⟨len, t, d⟩
    · rcases s with _ | ⟨c, s1⟩
      · refine ⟨by simp [scanAux, tryMatch_nil], by simp [scanAux, tryMatch_nil], ?_⟩
        intro j hj hne
        exfalso
        have hlen : content.length ≤ i := by
          have h0 := congrArg List.length hs
          simp only [List.length_nil, List.length_drop] at h0
          omega
        have hdj : content.drop j = [] :=
          List.drop_eq_nil_of_le (le_trans hlen hj)
        exact hne (by rw [hdj, tryMatch_nil])
      · have hs1 : s1 = content.drop (i + 1) := by
          have : content.drop (i + 1) = (content.drop i).drop 1 := by
            rw [List.drop_drop]
          rw [this, ← hs]
          rfl
        have hle1 : s1.length ≤ fuel := by
          simp only [List.length_cons] at hle
          omega
        obtain ⟨ih1, ih2, ih3⟩ := ih s1 (i + 1) hs1 hle1
        have hunf : scanAux (fuel + 1) (c :: s1) i = scanAux fuel s1 (i + 1) := by
          simp only [scanAux, htm]
        rw [hunf]
        refine ⟨fun m hm => ⟨(ih1 m hm).1, by have := (ih1 m hm).2; omega⟩,
          ih2, ?_⟩
        intro j hj hne
        rcases Nat.eq_or_lt_of_le hj with rfl | hj1
        · exact absurd (hs ▸ htm) hne
        · exact ih3 j hj1 hne
    · obtain ⟨hT, hTa, hD, hlen, htake, h5, hlelen⟩ := tryMatch_spec htm
      have hdl : s.drop len = content.drop (i + len) := by
        rw [hs, List.drop_drop]
      have hlef : (s.drop len).length ≤ fuel := by
        simp only [List.length_drop]
        omega
      obtain ⟨ih1, ih2, ih3⟩ := ih (s.drop len) (i + len) hdl hlef
      have hunf : scanAux (fuel + 1) s i =
          ⟨i, i + len, t, d⟩ :: scanAux fuel (s.drop len) (i + len) := by
        simp only [scanAux, htm]
      rw [hunf]
      have hslen : s.length = content.length - i := by
        rw [hs, List.length_drop]
      have hwf : MatchWf content ⟨i, i + len, t, d⟩ := by
        refine ⟨?_, ?_, ?_, hT, ?_, ?_⟩
        · show i + 5 ≤ i + len
          omega
        · show i + len ≤ content.length
          omega
        · show (content.drop i).take (i + len - i) = wikiText t d
          have heq : i + len - i = len := by omega
          rw [heq, ← hs, htake]
        · intro c hc
          have := hTa c hc
          simp only [titleChar, Bool.and_eq_true, bne_iff_ne, ne_eq] at this
          exact this
        · intro dd hdd
          obtain ⟨h1, h2⟩ := hD dd hdd
          refine ⟨h1, fun c hc => ?_⟩
          have := h2 c hc
          simp only [displayChar, bne_iff_ne, ne_eq] at this
          exact this
      refine ⟨?_, ?_, ?_⟩
      · intro m hm
        rcases List.mem_cons.mp hm with rfl | hm1
        · exact ⟨hwf, Nat.le_refl i⟩
        · obtain ⟨hw, hge⟩ := ih1 m hm1
          exact ⟨hw, by omega⟩
      · rw [List.chain'_cons']
        refine ⟨?_, ih2⟩
        intro b hb
        have hbmem : b ∈ scanAux fuel (s.drop len) (i + len) :=
          List.mem_of_mem_head? hb
        exact (ih1 b hbmem).2
      · intro j hj hne
        by_cases hj2 : j < i + len
        · exact ⟨⟨i, i + len, t, d⟩, List.mem_cons_self _ _, hj, hj2⟩
        · obtain ⟨m, hm, h1, h2⟩ := ih3 j (by omega) hne
          exact ⟨m, List.mem_cons_of_mem _ hm, h1, h2⟩
theorem extractOne_eq_specLink {content : List Char} {m : WikiMatch}
    (hwf : MatchWf content m) :
    extractOne content m = some (specLink content m) := by
  obtain ⟨h5m, hstop, hslice, hT, hTa, hD⟩ := hwf
  have hTa2 : ∀ c ∈ m.rawTitle, titleChar c = true := by
    intro c hc
    obtain ⟨h1, h2⟩ := hTa c hc
    simp [titleChar, h1, h2]
  have hD2 : ∀ dd, m.rawDisplay = some dd →
      dd ≠ [] ∧ ∀ c ∈ dd, displayChar c = true := by
    intro dd hdd
    obtain ⟨h1, h2⟩ := hD dd hdd
    exact ⟨h1, fun c hc => by simp [displayChar, h2 c hc]⟩
  have htm := tryMatch_wikiText hT hTa2 hD2
  have hff : findFirst (wikiText m.rawTitle m.rawDisplay) =
      some ((wikiText m.rawTitle m.rawDisplay).length, m.rawTitle,
        m.rawDisplay) := by
    rw [show wikiText m.rawTitle m.rawDisplay =
      '[' :: '[' :: (m.rawTitle ++ wikiMid m.rawDisplay ++ [']', ']'])
      from rfl] at htm ⊢
    rw [findFirst, htm]
  rw [extractOne]
  simp only [hslice, hff]
  have hcs : (if m.start < 50 then 0 else m.start - 50) = m.start - 50 := by
    split <;> omega
  rw [hcs]
  cases hd : m.rawDisplay with
  | none => simp [specLink, hd]
  | some dd => simp [specLink, hd]

theorem extractLinks_eq_map (content : List Char) :
    extractLinks content = (findLinkMatches content).map (specLink content) := by
  have hwf := (scanAux_spec content content.length content 0 (by simp)
    (by simp)).1
  by_cases hc : content = []
  · subst hc
    simp [extractLinks, findLinkMatches, scanAux]
  · rw [extractLinks, if_neg hc]
    have hgen : ∀ L : List WikiMatch, (∀ m ∈ L, MatchWf content m) →
        L.filterMap (extractOne content) = L.map (specLink content) := by
      intro L
      induction L with
      | nil => intro _; rfl
      | cons m L ih =>
        intro hall
        rw [List.filterMap_cons, List.map_cons,
          extractOne_eq_specLink (hall m (List.mem_cons_self m L)),
          ih (fun x hx => hall x (List.mem_cons_of_mem m hx))]
    exact hgen (findLinkMatches content)
      (fun x hx => (hwf x hx).1)
/-! ## Title normalization: code vs. spec wording (C9) -/

theorem goIsSpace_eq_false_of_range {c : Char} (h1 : 65 ≤ c.toNat)
    (h2 : c.toNat ≤ 122) : goIsSpace c = false := by
  simp only [goIsSpace, Bool.or_eq_false_iff, Bool.and_eq_false_iff,
    decide_eq_false_iff_not, not_le]
  omega

theorem goToLowerChar_toNat {c : Char} (h : 65 ≤ c.toNat ∧ c.toNat ≤ 90) :
    (goToLowerChar c).toNat = c.toNat + 32 := by
  rw [goToLowerChar, if_pos h]
  unfold Char.ofNat
  rw [dif_pos (Or.inl (by omega))]
  rfl

/-- Lower-casing never turns a character into or out of white space. -/
theorem goIsSpace_goToLowerChar (c : Char) :
    goIsSpace (goToLowerChar c) = goIsSpace c := by
  by_cases h : 65 ≤ c.toNat ∧ c.toNat ≤ 90
  · have hv := goToLowerChar_toNat h
    rw [goIsSpace_eq_false_of_range (by omega) (by omega),
      @goIsSpace_eq_false_of_range c (by omega) (by omega)]
  · rw [goToLowerChar, if_neg h]

/-- Trimming commutes with lower-casing. -/
theorem trimSpace_map_lower (l : List Char) :
    trimSpace (l.map goToLowerChar) = (trimSpace l).map goToLowerChar := by
  have hps : (goIsSpace ∘ goToLowerChar) = goIsSpace :=
    funext goIsSpace_goToLowerChar
  simp only [trimSpace, List.dropWhile_map, hps, ← List.map_reverse]

/-- The spec's literal description of title normalization, composed in the
order the sentence names the operations: lowercase, trim the ends, drop the
disallowed characters, and collapse each run of white space to one space
(keeping a collapsed leading or trailing space).  `collapseWs` is that last
step. -/
def collapseWsAux : Bool → List Char → List Char
  | _, [] => []
  | inRun, c :: cs =>
    if goIsSpace c then
      if inRun then collapseWsAux true cs
      else ' ' :: collapseWsAux true cs
    else c :: collapseWsAux false cs

/-- Collapse each run of white space to a single space, leaving every other
character in place. -/
def collapseWs (l : List Char) : List Char := collapseWsAux false l

/-- The claim's normalization, read word for word. -/
def specNormalizeTitle (l : List Char) : List Char :=
  collapseWs ((trimSpace (l.map goToLowerChar)).filter keepTitleChar)

/-- The amended normalization: as the claim, except that the final collapse
step is a fields-and-rejoin, which also discards the leading/trailing white
space that dropping punctuation can expose. -/
def amendedNormalizeTitle (l : List Char) : List Char :=
  List.intercalate [' ']
    (goFields ((trimSpace (l.map goToLowerChar)).filter keepTitleChar))

/-- C9 counterexample: on `". a"` the code returns `"a"`, while the spec's
operations composed in the stated order leave the leading space exposed by
dropping `"."` — they yield `" a"`. -/
theorem C9_counterexample :
    normalizeTitle ". a".data ≠ specNormalizeTitle ". a".data ∧
    normalizeTitle ". a".data = "a".data ∧
    specNormalizeTitle ". a".data = " a".data := by
  refine ⟨?_, by decide, by decide⟩
  decide

/-- C9 amended: `NormalizeTitle` lowercases, trims, drops every character
other than ASCII letters, digits, spaces, hyphens and underscores, and
joins the whitespace-separated words of the result with single spaces
(collapsing runs and removing leading/trailing white space). -/
theorem C9_normalizeTitle_amended (l : List Char) :
    normalizeTitle l = amendedNormalizeTitle l := by
  rw [normalizeTitle, amendedNormalizeTitle, trimSpace_map_lower]
/-! ## Data model (internal/model, migrations/000001_init_schema.up.sql)

Rows of the `notes`, `tags`, `note_tags`, `links` and `activity_log` tables.
Ids are `Nat` (standing for the UUIDs, generated fresh from a counter);
timestamps are `Nat` ticks of the logical clock. -/

inductive NoteType where
  | note | daily | meeting | idea
deriving Repr, DecidableEq

inductive ActionType where
  | create | update | view | search | delete | login | logout
deriving Repr, DecidableEq

/-- The error kinds the service layer surfaces: `validation` for request
validation failures (`model.ErrValidation`), `notFound` for
`repository.ErrNotFound`, `conflict` for the duplicate-tag-name error whose
message the HTTP handler recognizes and maps to 409, and `internal` for
unexpected backend errors. -/
inductive Err where
  | validation | notFound | conflict | internal
deriving Repr, DecidableEq

deriving instance DecidableEq for Except

structure Note where
  id : Nat
  userId : Nat
  title : List Char
  content : List Char
  noteType : NoteType
  wordCount : Nat
  readingTimeMinutes : Nat
  isDeleted : Bool
  deletedAt : Option Nat
  createdAt : Nat
  updatedAt : Nat
  lastAccessedAt : Option Nat
  accessCount : Nat
deriving Repr, DecidableEq

structure LinkRow where
  id : Nat
  userId : Nat
  sourceNoteId : Nat
  targetNoteId : Nat
  linkContext : Option (List Char)
  createdAt : Nat
deriving Repr, DecidableEq

structure TagRow where
  id : Nat
  userId : Nat
  name : List Char
  color : Option (List Char)
  createdAt : Nat
deriving Repr, DecidableEq

structure NoteTagRow where
  noteId : Nat
  tagId : Nat
  createdAt : Nat
deriving Repr, DecidableEq

structure ActivityRow where
  id : Nat
  userId : Nat
  noteId : Option Nat
  action : ActionType
  createdAt : Nat
deriving Repr, DecidableEq

/-- The whole relational state, plus the fresh-id counter (for `uuid.New()`
/ `gen_random_uuid()`) and the logical clock (for `time.Now()` / `NOW()`).
The clock advances on every state-changing call so that distinct writes
carry distinct timestamps, as distinct wall-clock instants do. -/
structure DB where
  notes : List Note
  links : List LinkRow
  tags : List TagRow
  noteTags : List NoteTagRow
  activities : List ActivityRow
  nextId : Nat
  clock : Nat
deriving Repr, DecidableEq

def emptyDB : DB := ⟨[], [], [], [], [], 0, 0⟩

/-- Stable insertion sort (deterministic model of `ORDER BY`). -/
def insertSorted (le : α → α → Bool) (x : α) : List α → List α
  | [] => [x]
  | y :: ys => if le x y then x :: y :: ys else y :: insertSorted le x ys

def sortByLe (le : α → α → Bool) (l : List α) : List α :=
  l.foldr (insertSorted le) []

/-- Lexicographic comparison of strings by code point (`ORDER BY name`). -/
def charListLe : List Char → List Char → Bool
  | [], _ => true
  | _ :: _, [] => false
  | a :: as, b :: bs => if a = b then charListLe as bs else a.toNat < b.toNat
/-! ## Note repository (internal/repository, note-repository file) -/

namespace NoteRepo

/-- `Create`: insert a row; the `calculate_note_metrics` trigger fills
`word_count` and `reading_time_minutes` from the content, and the inserted
row (as returned by `RETURNING …`) is handed back. -/
def create (db : DB) (userId : Nat) (title content : List Char)
    (noteType : NoteType) : Note × DB :=
  let wc := pgWordCount content
  let n : Note :=
    { id := db.nextId, userId := userId, title := title,
      content := content, noteType := noteType, wordCount := wc,
      readingTimeMinutes := pgReadingTime wc,
      isDeleted := false, deletedAt := none,
      createdAt := db.clock, updatedAt := db.clock,
      lastAccessedAt := none, accessCount := 0 }
  (n,
    { db with
      notes := db.notes ++ [n]
      nextId := db.nextId + 1
      clock := db.clock + 1 })

/-- `FindByID`: `WHERE id = $1 AND user_id = $2 AND is_deleted = false`;
no row means `ErrNotFound`. -/
def findByID (db : DB) (userId id : Nat) : Option Note :=
  db.notes.find? fun n => n.id == id && n.userId == userId && !n.isDeleted

/-- Pick the row with the greatest `created_at` (`ORDER BY created_at DESC
LIMIT 1`). -/
def latestCreated (ns : List Note) : Option Note :=
  ns.foldl (fun acc n =>
    match acc with
    | none => some n
    | some m => if m.createdAt < n.createdAt then some n else some m) none

/-- `FindByTitle`: exact, case-sensitive title match among the owner's
non-deleted notes, newest first. -/
def findByTitle (db : DB) (userId : Nat) (title : List Char) : Option Note :=
  latestCreated (db.notes.filter fun n =>
    n.userId == userId && n.title == title && !n.isDeleted)

inductive SortKey where
  | createdAt | updatedAt | title | accessCount
deriving Repr, DecidableEq

/-- `NoteFilter` (internal/model): pagination, optional kind and tag
filters, a free-text search string, and sorting.  `sortBy = none` models
the empty string (defaulting to `created_at`); `sortOrder` is the raw
string the repository compares against `"asc"`. -/
structure NoteFilter where
  page : Int
  limit : Int
  noteType : Option NoteType
  tagId : Option Nat
  search : List Char
  sortBy : Option SortKey
  sortOrder : List Char
deriving Repr, DecidableEq

/-- Comparison along the `ORDER BY` key; `asc` false means `DESC`.
`last_accessed_at` is not a sort key of `List`, so `Option` handling is not
needed here. -/
def noteLe (key : SortKey) (asc : Bool) (a b : Note) : Bool :=
  let le :=
    match key with
    | SortKey.createdAt => a.createdAt ≤ b.createdAt
    | SortKey.updatedAt => a.updatedAt ≤ b.updatedAt
    | SortKey.title => charListLe a.title b.title
    | SortKey.accessCount => a.accessCount ≤ b.accessCount
  if asc then le else
    match key with
    | SortKey.createdAt => b.createdAt ≤ a.createdAt
    | SortKey.updatedAt => b.updatedAt ≤ a.updatedAt
    | SortKey.title => charListLe b.title a.title
    | SortKey.accessCount => b.accessCount ≤ a.accessCount

/-- `List`: filter by owner, the soft-delete predicate, optional kind,
optional tag membership, and — when `search` is non-empty — the full-text
predicate `content_tsv @@ plainto_tsquery('english', q)`.  The text-search
semantics lives outside the relational model, so the caller passes it in as
`ftsMatch title content query` (the `tsvector` is built from title and
content); every theorem about `List` holds for every such predicate.
Returns the requested page and the total count before pagination; a page
below 1 makes the SQL `OFFSET` negative, which the store rejects. -/
def list (db : DB) (userId : Nat) (filter : NoteFilter)
    (ftsMatch : List Char → List Char → List Char → Bool) :
    Except Err (List Note × Nat) :=
  let base := db.notes.filter fun n =>
    n.userId == userId && !n.isDeleted &&
    (match filter.noteType with
     | none => true
     | some t => n.noteType == t) &&
    (match filter.tagId with
     | none => true
     | some tg => db.noteTags.any fun nt =>
         nt.noteId == n.id && nt.tagId == tg) &&
    (if filter.search = [] then true
     else ftsMatch n.title n.content filter.search)
  let total := base.length
  let key := filter.sortBy.getD SortKey.createdAt
  let asc := filter.sortOrder = "asc".data
  let sorted := sortByLe (noteLe key asc) base
  let limit : Int := if filter.limit ≤ 0 then 20 else filter.limit
  let offset : Int := (filter.page - 1) * limit
  if offset < 0 then Except.error Err.internal
  else Except.ok ((sorted.drop offset.toNat).take limit.toNat, total)

/-- `Update`: set title, content and `updated_at` on the owner's non-deleted
row; the metrics trigger re-fires only when the content value changed
(`WHEN OLD.content IS DISTINCT FROM NEW.content`), and the updated row is
returned.  No matching row means `ErrNotFound`. -/
def update (db : DB) (userId noteId : Nat) (title content : List Char) :
    Except Err (Note × DB) :=
  match db.notes.find? (fun n =>
      n.id == noteId && n.userId == userId && !n.isDeleted) with
  | none => Except.error Err.notFound
  | some old =>
    let wc := if content = old.content then old.wordCount
      else pgWordCount content
    let rt := if content = old.content then old.readingTimeMinutes
      else pgReadingTime (pgWordCount content)
    let updated :=
      { old with
        title := title
        content := content
        updatedAt := db.clock
        wordCount := wc
        readingTimeMinutes := rt }
    Except.ok (updated,
      { db with
        notes := db.notes.map fun n =>
          if n.id == noteId && n.userId == userId && !n.isDeleted
          then updated else n
        clock := db.clock + 1 })

/-- `Delete` (soft): set `is_deleted`, `deleted_at` (and `updated_at`, via
the `update_notes_updated_at` trigger) on the owner's non-deleted row;
zero rows affected means `ErrNotFound`. -/
def delete (db : DB) (userId id : Nat) : Except Err DB :=
  if db.notes.any (fun n =>
      n.id == id && n.userId == userId && !n.isDeleted) then
    Except.ok
      { db with
        notes := db.notes.map fun n =>
          if n.id == id && n.userId == userId && !n.isDeleted
          then { n with
                 isDeleted := true
                 deletedAt := some db.clock
                 updatedAt := db.clock }
          else n
        clock := db.clock + 1 }
  else Except.error Err.notFound

/-- `Restore`: clear the deletion flags on the owner's deleted row
(refreshing `updated_at` via the trigger); zero rows affected means
`ErrNotFound`. -/
def restore (db : DB) (userId id : Nat) : Except Err DB :=
  if db.notes.any (fun n =>
      n.id == id && n.userId == userId && n.isDeleted) then
    Except.ok
      { db with
        notes := db.notes.map fun n =>
          if n.id == id && n.userId == userId && n.isDeleted
          then { n with
                 isDeleted := false
                 deletedAt := none
                 updatedAt := db.clock }
          else n
        clock := db.clock + 1 }
  else Except.error Err.notFound

/-- `UpdateAccessCount`: single-statement `access_count = access_count + 1,
last_accessed_at = NOW()` scoped by owner (note: no soft-delete predicate
here, and the affected-row count is not checked); `updated_at` refreshes
via the trigger. -/
def updateAccessCount (db : DB) (userId id : Nat) : DB :=
  { db with
    notes := db.notes.map fun n =>
      if n.id == id && n.userId == userId
      then { n with
             accessCount := n.accessCount + 1
             lastAccessedAt := some db.clock
             updatedAt := db.clock }
      else n
    clock := db.clock + 1 }

end NoteRepo
/-! ## Link repository (internal/repository/link.go) -/

namespace LinkRepo

/-- `Create`: insert with `ON CONFLICT (source_note_id, target_note_id) DO
NOTHING` — an existing edge for the pair absorbs the insert silently (the
`pgx.ErrNoRows` of the empty `RETURNING` is treated as success). -/
def create (db : DB) (userId source target : Nat)
    (context : Option (List Char)) : DB :=
  if db.links.any (fun l =>
      l.sourceNoteId == source && l.targetNoteId == target) then
    { db with nextId := db.nextId + 1 }
  else
    { db with
      links := db.links ++
        [{ id := db.nextId, userId := userId, sourceNoteId := source,
           targetNoteId := target, linkContext := context,
           createdAt := db.clock }]
      nextId := db.nextId + 1
      clock := db.clock + 1 }

/-- `DeleteByNote`: delete every edge of the owner that touches the note on
either side. -/
def deleteByNote (db : DB) (userId noteId : Nat) : DB :=
  { db with
    links := db.links.filter fun l =>
      !(l.userId == userId &&
        (l.sourceNoteId == noteId || l.targetNoteId == noteId)) }

end LinkRepo

/-! ## Tag repository (internal/repository/tag.go) -/

namespace TagRepo

/-- `Create`: plain insert; a `(user_id, name)` uniqueness violation
surfaces as a backend error that the service does not special-case
(modelled as `internal`). -/
def create (db : DB) (userId : Nat) (name : List Char)
    (color : Option (List Char)) : Except Err (TagRow × DB) :=
  if db.tags.any (fun t => t.userId == userId && t.name == name) then
    Except.error Err.internal
  else
    let t : TagRow :=
      { id := db.nextId, userId := userId, name := name,
        color := color, createdAt := db.clock }
    Except.ok (t,
      { db with
        tags := db.tags ++ [t]
        nextId := db.nextId + 1
        clock := db.clock + 1 })

/-- `FindByID`: `WHERE id = $1 AND user_id = $2`. -/
def findByID (db : DB) (userId id : Nat) : Option TagRow :=
  db.tags.find? fun t => t.id == id && t.userId == userId

/-- `FindByName`: `WHERE user_id = $1 AND name = $2`. -/
def findByName (db : DB) (userId : Nat) (name : List Char) : Option TagRow :=
  db.tags.find? fun t => t.userId == userId && t.name == name

/-- `ListWithNoteCount`: the owner's tags ordered by name with
`COUNT(nt.note_id)` over a `LEFT JOIN note_tags` — the count is over the
raw attachment rows, with no join to `notes` and hence no soft-delete
predicate.  Returns the page plus the total tag count. -/
def listWithNoteCount (db : DB) (userId : Nat) (page limit : Int) :
    Except Err (List (TagRow × Nat) × Nat) :=
  let total := (db.tags.filter fun t => t.userId == userId).length
  let rows := (sortByLe (fun a b => charListLe a.name b.name)
      (db.tags.filter fun t => t.userId == userId)).map fun t =>
    (t, (db.noteTags.filter fun nt => nt.tagId == t.id).length)
  let offset : Int := (page - 1) * limit
  if offset < 0 ∨ limit < 0 then Except.error Err.internal
  else Except.ok ((rows.drop offset.toNat).take limit.toNat, total)

/-- `AddToNote`: `INSERT … ON CONFLICT (note_id, tag_id) DO NOTHING`. -/
def addToNote (db : DB) (noteId tagId : Nat) : DB :=
  if db.noteTags.any (fun nt =>
      nt.noteId == noteId && nt.tagId == tagId) then db
  else
    { db with
      noteTags := db.noteTags ++
        [{ noteId := noteId, tagId := tagId, createdAt := db.clock }]
      clock := db.clock + 1 }

/-- `GetByNote`: the tags attached to the note (`INNER JOIN note_tags`),
ordered by name.  The query is keyed by the note id alone. -/
def getByNote (db : DB) (noteId : Nat) : List TagRow :=
  sortByLe (fun a b => charListLe a.name b.name)
    (db.tags.filter fun t =>
      db.noteTags.any fun nt => nt.tagId == t.id && nt.noteId == noteId)

end TagRepo

/-! ## Activity repository (internal/repository, activity-repository file) -/

namespace ActivityRepo

/-- `Create`: append a log row with a fresh id and the current instant. -/
def create (db : DB) (userId : Nat) (noteId : Option Nat)
    (action : ActionType) : DB :=
  { db with
    activities := db.activities ++
      [{ id := db.nextId, userId := userId, noteId := noteId,
         action := action, createdAt := db.clock }]
    nextId := db.nextId + 1
    clock := db.clock + 1 }

structure UserStats where
  totalNotes : Nat
  totalTags : Nat
  totalLinks : Nat
  totalWords : Nat
  notesCreatedToday : Nat
  notesCreatedWeek : Nat
  lastActivity : Option Nat
deriving Repr, DecidableEq

/-- `GetUserStats`: per-owner counts.  Note-derived numbers range over the
owner's non-deleted notes only.  The calendar predicates
(`DATE(created_at) = CURRENT_DATE`, `created_at >= DATE_TRUNC('week', …)`)
are passed in as `isToday` / `inWeek`; every theorem holds for all of
them. -/
def getUserStats (db : DB) (userId : Nat) (isToday inWeek : Nat → Bool) :
    UserStats :=
  let live := db.notes.filter fun n => n.userId == userId && !n.isDeleted
  { totalNotes := live.length
    totalTags := (db.tags.filter fun t => t.userId == userId).length
    totalLinks := (db.links.filter fun l => l.userId == userId).length
    totalWords := (live.map (fun n => n.wordCount)).sum
    notesCreatedToday := (live.filter fun n => isToday n.createdAt).length
    notesCreatedWeek := (live.filter fun n => inWeek n.createdAt).length
    lastActivity := (db.activities.filter
        (fun a => a.userId == userId)).foldl
      (fun acc a =>
        match acc with
        | none => some a.createdAt
        | some t => if t < a.createdAt then some a.createdAt else some t)
      none }

/-- `ORDER BY access_count DESC, last_accessed_at DESC`: under `DESC`
PostgreSQL places NULLs first, so an absent `last_accessed_at` sorts as
largest. -/
def trendingLe (a b : Note) : Bool :=
  if a.accessCount = b.accessCount then
    match a.lastAccessedAt, b.lastAccessedAt with
    | none, _ => true
    | some _, none => false
    | some x, some y => y ≤ x
  else b.accessCount ≤ a.accessCount

/-- `GetTrendingNotes`: the owner's non-deleted notes by access count (and
recency) descending, limited. -/
def getTrendingNotes (db : DB) (userId : Nat) (limit : Nat) : List Note :=
  (sortByLe trendingLe
    (db.notes.filter fun n => n.userId == userId && !n.isDeleted)).take limit

/-- `GetForgottenNotes`: the owner's non-deleted notes whose
`last_accessed_at` is older than the cutoff (`NOW() - days`) or NULL,
stalest first by `COALESCE(last_accessed_at, created_at)`, limited. -/
def getForgottenNotes (db : DB) (userId cutoff limit : Nat) : List Note :=
  (sortByLe
    (fun a b => a.lastAccessedAt.getD a.createdAt ≤
      b.lastAccessedAt.getD b.createdAt)
    (db.notes.filter fun n =>
      n.userId == userId && !n.isDeleted &&
      (match n.lastAccessedAt with
       | some t => t < cutoff
       | none => true))).take limit

end ActivityRepo
/-! ## Note service (internal/service/note.go) -/

/-- `model.CreateNoteRequest`: `Title` required with 1–500 characters,
`Content` at most 100000, `NoteType` optional (`omitempty`, the `oneof`
set is the enum itself); `none` models the empty string. -/
structure CreateNoteRequest where
  title : List Char
  content : List Char
  noteType : Option NoteType
deriving Repr, DecidableEq

/-- `util.ValidateStruct` on `CreateNoteRequest` (go-playground tags
`required,min=1,max=500` / `max=100000`). -/
def validateCreateNote (req : CreateNoteRequest) : Bool :=
  req.title ≠ [] && req.title.length ≤ 500 && req.content.length ≤ 100000

/-- `model.UpdateNoteRequest`: both fields optional, same bounds. -/
structure UpdateNoteRequest where
  title : Option (List Char)
  content : Option (List Char)
deriving Repr, DecidableEq

def validateUpdateNote (req : UpdateNoteRequest) : Bool :=
  (match req.title with
   | none => true
   | some t => t ≠ [] && t.length ≤ 500) &&
  (match req.content with
   | none => true
   | some c => c.length ≤ 100000)

namespace NoteSvc

/-- `processLinks`: extract the wiki references of the note's content; for
each, look up a same-owner note by exact title (the reference's trimmed
title); on a hit insert an edge carrying the reference's context, on a miss
skip silently. -/
def processLinks (db : DB) (userId : Nat) (note : Note) : DB :=
  (extractLinks note.content).foldl
    (fun db l =>
      match NoteRepo.findByTitle db userId l.title with
      | none => db
      | some target =>
        LinkRepo.create db userId note.id target.id (some l.context))
    db

/-- `NoteService.Create`: validate, persist (defaulting the kind to
`note`), reconcile links, append a `create` activity, and return the
stored note. -/
def create (db : DB) (userId : Nat) (req : CreateNoteRequest) :
    Except Err (Note × DB) :=
  if !validateCreateNote req then Except.error Err.validation
  else
    let noteType := req.noteType.getD NoteType.note
    let (note, db1) := NoteRepo.create db userId req.title req.content noteType
    let db2 := processLinks db1 userId note
    let db3 := ActivityRepo.create db2 userId (some note.id) ActionType.create
    Except.ok (note, db3)

/-- `NoteService.GetByID`: load (not-found is an error), then best-effort
bump the access counter and append a `view` activity; the note returned is
the one loaded before the bump. -/
def getByID (db : DB) (userId noteId : Nat) : Except Err (Note × DB) :=
  match NoteRepo.findByID db userId noteId with
  | none => Except.error Err.notFound
  | some note =>
    let db1 := NoteRepo.updateAccessCount db userId noteId
    let db2 := ActivityRepo.create db1 userId (some note.id) ActionType.view
    Except.ok (note, db2)

/-- `NoteService.List` (and `Search`, which is the same call with
`filter.search` set): pass through to the repository. -/
def list (db : DB) (userId : Nat) (filter : NoteRepo.NoteFilter)
    (ftsMatch : List Char → List Char → List Char → Bool) :
    Except Err (List Note × Nat) :=
  NoteRepo.list db userId filter ftsMatch

/-- `NoteService.Update`: validate, load, apply the provided fields,
persist, delete every edge touching the note (`DeleteByNote` hits incoming
edges too), re-reconcile from the new content, and append an `update`
activity. -/
def update (db : DB) (userId noteId : Nat) (req : UpdateNoteRequest) :
    Except Err (Note × DB) :=
  if !validateUpdateNote req then Except.error Err.validation
  else
    match NoteRepo.findByID db userId noteId with
    | none => Except.error Err.notFound
    | some note0 =>
      let newTitle := req.title.getD note0.title
      let newContent := req.content.getD note0.content
      match NoteRepo.update db userId noteId newTitle newContent with
      | Except.error e => Except.error e
      | Except.ok (note1, db1) =>
        let db2 := LinkRepo.deleteByNote db1 userId noteId
        let db3 := processLinks db2 userId note1
        let db4 := ActivityRepo.create db3 userId (some note1.id)
          ActionType.update
        Except.ok (note1, db4)

/-- `NoteService.Delete`: soft-delete, remove every edge touching the note,
append a `delete` activity. -/
def delete (db : DB) (userId noteId : Nat) : Except Err DB :=
  match NoteRepo.delete db userId noteId with
  | Except.error e => Except.error e
  | Except.ok db1 =>
    let db2 := LinkRepo.deleteByNote db1 userId noteId
    let db3 := ActivityRepo.create db2 userId (some noteId) ActionType.delete
    Except.ok db3

/-- `NoteService.Restore`: pass through to the repository. -/
def restore (db : DB) (userId noteId : Nat) : Except Err DB :=
  NoteRepo.restore db userId noteId

/-- The deterministic daily-note title `"Daily Note - <date>"`. -/
def dailyTitle (dateStr : List Char) : List Char :=
  "Daily Note - ".data ++ dateStr

/-- `NoteService.GetOrCreateDailyNote`: find by the deterministic title; on
a hit return it with `created = false`, on `ErrNotFound` create a `daily`
note with empty content and return it with `created = true`. -/
def getOrCreateDailyNote (db : DB) (userId : Nat) (dateStr : List Char) :
    Except Err (Note × Bool × DB) :=
  let title := dailyTitle dateStr
  match NoteRepo.findByTitle db userId title with
  | some note => Except.ok (note, false, db)
  | none =>
    match create db userId
        { title := title, content := [], noteType := some NoteType.daily } with
    | Except.error e => Except.error e
    | Except.ok (note, db1) => Except.ok (note, true, db1)

end NoteSvc

/-! ## Tag service (internal/service/tag.go) -/

/-- `model.CreateTagRequest`: `Name` required with 1–100 characters,
`Color` optional with exactly 7. -/
structure CreateTagRequest where
  name : List Char
  color : Option (List Char)
deriving Repr, DecidableEq

def validateCreateTag (req : CreateTagRequest) : Bool :=
  req.name ≠ [] && req.name.length ≤ 100 &&
  (match req.color with
   | none => true
   | some c => c.length = 7)

namespace TagSvc

/-- `TagService.Create`: validate, then reject an existing same-owner name
with the error `"tag with name '…' already exists"` — the exact message the
HTTP handler recognizes and maps to 409 Conflict (modelled as
`Err.conflict`) — and otherwise insert. -/
def create (db : DB) (userId : Nat) (req : CreateTagRequest) :
    Except Err (TagRow × DB) :=
  if !validateCreateTag req then Except.error Err.validation
  else
    match TagRepo.findByName db userId req.name with
    | some _ => Except.error Err.conflict
    | none => TagRepo.create db userId req.name req.color

/-- `TagService.AddToNote`: verify ownership of the note and of the tag
(each failure is not-found), then attach idempotently. -/
def addToNote (db : DB) (userId noteId tagId : Nat) : Except Err DB :=
  match NoteRepo.findByID db userId noteId with
  | none => Except.error Err.notFound
  | some _ =>
    match TagRepo.findByID db userId tagId with
    | none => Except.error Err.notFound
    | some _ => Except.ok (TagRepo.addToNote db noteId tagId)

/-- `TagService.List`: pass through to `ListWithNoteCount`. -/
def listTags (db : DB) (userId : Nat) (page limit : Int) :
    Except Err (List (TagRow × Nat) × Nat) :=
  TagRepo.listWithNoteCount db userId page limit

/-- `TagService.GetByNote`: verify note ownership (not-found otherwise),
then list the note's tags. -/
def getByNote (db : DB) (userId noteId : Nat) : Except Err (List TagRow) :=
  match NoteRepo.findByID db userId noteId with
  | none => Except.error Err.notFound
  | some _ => Except.ok (TagRepo.getByNote db noteId)

end TagSvc

/-- Structural well-formedness of a database state, maintained by every
operation and assumed by the state-dependent theorems: row ids are unique
per table, and every edge's owner matches the owner of both of its endpoint
notes (the repository only ever creates an edge between two notes it found
under the same `user_id`, and the schema's foreign keys tie the rows
together). -/
def WfDB (db : DB) : Prop :=
  (db.notes.map (fun n => n.id)).Nodup ∧
  (db.tags.map (fun t => t.id)).Nodup ∧
  (∀ l ∈ db.links, ∃ s ∈ db.notes,
    s.id = l.sourceNoteId ∧ s.userId = l.userId) ∧
  (∀ l ∈ db.links, ∃ t ∈ db.notes,
    t.id = l.targetNoteId ∧ t.userId = l.userId)

instance (db : DB) : Decidable (WfDB db) := by
  unfold WfDB
  infer_instance
/-! ## Helper lemmas about the relational model -/

theorem find?_map_of_pred {α : Type} (l : List α) (p : α → Bool) (g : α → α)
    (hpres : ∀ m, p (g m) = p m) :
    (l.map g).find? p = (l.find? p).map g := by
  induction l with
  | nil => rfl
  | cons a l ih =>
    simp only [List.map_cons, List.find?_cons]
    rw [hpres a]
    cases hp : p a
    · exact ih
    · rfl

theorem find?_eq_of_unique {α : Type} {l : List α} {p : α → Bool} {x : α}
    (hx : x ∈ l) (hpx : p x = true)
    (huniq : ∀ y ∈ l, p y = true → y = x) : l.find? p = some x := by
  rcases hfind : l.find? p with _ | z
  · have := List.find?_eq_none.mp hfind x hx
    simp [hpx] at this
  · have h1 := List.find?_some hfind
    have h2 := List.mem_of_find?_eq_some hfind
    rw [huniq z h2 h1]

theorem mem_insertSorted {α : Type} {le : α → α → Bool} {x y : α}
    {l : List α} (h : x ∈ insertSorted le y l) : x = y ∨ x ∈ l := by
  induction l with
  | nil => simpa [insertSorted] using h
  | cons a l ih =>
    simp only [insertSorted] at h
    split at h
    · rcases List.mem_cons.mp h with h1 | h1
      · exact Or.inl h1
      · exact Or.inr h1
    · rcases List.mem_cons.mp h with h1 | h1
      · exact Or.inr (h1 ▸ List.mem_cons_self a l)
      · rcases ih h1 with h2 | h2
        · exact Or.inl h2
        · exact Or.inr (List.mem_cons_of_mem a h2)

theorem mem_sortByLe {α : Type} {le : α → α → Bool} {x : α} {l : List α}
    (h : x ∈ sortByLe le l) : x ∈ l := by
  induction l with
  | nil => simpa [sortByLe] using h
  | cons a l ih =>
    simp only [sortByLe, List.foldr_cons] at h
    rcases mem_insertSorted h with h1 | h1
    · exact h1 ▸ List.mem_cons_self a l
    · exact List.mem_cons_of_mem a (ih h1)
/-- A cross-owner `FindByID` comes back empty: the query is scoped by
`user_id`, and no other row carries the note's id. -/
theorem findByID_cross_owner {db : DB} {x : Nat} {n : Note}
    (hwf : WfDB db) (hn : n ∈ db.notes) (howner : n.userId ≠ x) :
    NoteRepo.findByID db x n.id = none := by
  rw [NoteRepo.findByID, List.find?_eq_none]
  intro m hm hp
  simp only [Bool.and_eq_true, beq_iff_eq] at hp
  have hmn : m = n := List.inj_on_of_nodup_map hwf.1 hm hn hp.1.1
  exact howner (hmn ▸ hp.1.2)

/-- C7: for an owner `x` and a note belonging to a different owner,
`Get(x, id)` returns the NotFound error kind, and `AddTagToNote(x, id, t)`
returns NotFound for every tag — cross-owner access never succeeds and
never surfaces as any other error kind. -/
theorem C7_cross_owner_not_found (db : DB) (x : Nat) (n : Note)
    (hwf : WfDB db) (hn : n ∈ db.notes) (howner : n.userId ≠ x) :
    NoteSvc.getByID db x n.id = Except.error Err.notFound ∧
    ∀ tg, TagSvc.addToNote db x n.id tg = Except.error Err.notFound := by
  have hfind := findByID_cross_owner hwf hn howner
  constructor
  · rw [NoteSvc.getByID, hfind]
  · intro tg
    rw [TagSvc.addToNote, hfind]

/-- C8: creating a tag whose name an existing same-owner tag already uses
fails with the Conflict error kind (the `"tag with name '…' already
exists"` message the HTTP handler maps to 409) — a kind distinct from
Validation and NotFound — and, the call returning before the insert, no new
tag is stored. -/
theorem C8_duplicate_tag_conflict (db : DB) (u : Nat) (req : CreateTagRequest)
    (hvalid : validateCreateTag req = true)
    (t0 : TagRow) (hex : TagRepo.findByName db u req.name = some t0) :
    TagSvc.create db u req = Except.error Err.conflict ∧
    Err.conflict ≠ Err.validation ∧ Err.conflict ≠ Err.notFound ∧
    (∀ t db2, TagSvc.create db u req ≠ Except.ok (t, db2)) := by
  have h1 : TagSvc.create db u req = Except.error Err.conflict := by
    rw [TagSvc.create, hvalid]
    simp only [Bool.not_true, Bool.false_eq_true, if_false, hex]
  refine ⟨h1, by decide, by decide, ?_⟩
  intro t db2 h2
  rw [h1] at h2
  exact absurd h2 (by simp)

/-- C10: a successful `Get` returns the note as stored before the call's
own access bump — the stored row afterwards carries `access_count + 1` and
a fresh `last_accessed_at`, observable only in later reads. -/
theorem C10_get_returns_prebump (db : DB) (u nid : Nat) (n0 : Note)
    (hfind : NoteRepo.findByID db u nid = some n0) :
    ∃ db2, NoteSvc.getByID db u nid = Except.ok (n0, db2) ∧
      NoteRepo.findByID db2 u nid = some
        { n0 with
          accessCount := n0.accessCount + 1
          lastAccessedAt := some db.clock
          updatedAt := db.clock } := by
  refine ⟨_, by rw [NoteSvc.getByID, hfind], ?_⟩
  have hpred : ∀ m : Note,
      ((if m.id == nid && m.userId == u then
          { m with
            accessCount := m.accessCount + 1
            lastAccessedAt := some db.clock
            updatedAt := db.clock }
        else m).id == nid &&
        (if m.id == nid && m.userId == u then
          { m with
            accessCount := m.accessCount + 1
            lastAccessedAt := some db.clock
            updatedAt := db.clock }
        else m).userId == u &&
        !(if m.id == nid && m.userId == u then
          { m with
            accessCount := m.accessCount + 1
            lastAccessedAt := some db.clock
            updatedAt := db.clock }
        else m).isDeleted) =
      (m.id == nid && m.userId == u && !m.isDeleted) := by
    intro m
    split <;> rfl
  show NoteRepo.findByID
    (ActivityRepo.create (NoteRepo.updateAccessCount db u nid) u
      (some n0.id) ActionType.view) u nid = _
  rw [NoteRepo.findByID]
  show ((db.notes.map _).find? _) = _
  rw [find?_map_of_pred _ _ _ hpred]
  rw [NoteRepo.findByID] at hfind
  rw [hfind]
  have hp := List.find?_some hfind
  simp only [Bool.and_eq_true, beq_iff_eq] at hp
  show some (if n0.id == nid && n0.userId == u then
      { n0 with
        accessCount := n0.accessCount + 1
        lastAccessedAt := some db.clock
        updatedAt := db.clock }
    else n0) = _
  rw [if_pos (by simp [hp.1.1, hp.1.2])]
theorem linkCreate_notes (db : DB) (u s t : Nat) (c : Option (List Char)) :
    (LinkRepo.create db u s t c).notes = db.notes := by
  rw [LinkRepo.create]
  split <;> rfl

theorem processLinks_notes (db : DB) (u : Nat) (note : Note) :
    (NoteSvc.processLinks db u note).notes = db.notes := by
  rw [NoteSvc.processLinks]
  generalize extractLinks note.content = refs
  induction refs generalizing db with
  | nil => rfl
  | cons r rs ih =>
    simp only [List.foldl_cons]
    rw [ih]
    rcases NoteRepo.findByTitle db u r.title with _ | tgt
    · rfl
    · exact linkCreate_notes db u note.id tgt.id (some r.context)

theorem latestCreated_none {ns : List Note}
    (h : NoteRepo.latestCreated ns = none) : ns = [] := by
  cases ns with
  | nil => rfl
  | cons a l =>
    exfalso
    rw [NoteRepo.latestCreated] at h
    have hsome : ∀ (acc : Option Note) (l2 : List Note), acc.isSome = true →
        (l2.foldl (fun acc n =>
          match acc with
          | none => some n
          | some m => if m.createdAt < n.createdAt then some n else some m)
          acc).isSome = true := by
      intro acc l2
      induction l2 generalizing acc with
      | nil => exact fun h2 => h2
      | cons b l2 ih =>
        intro h2
        simp only [List.foldl_cons]
        rcases acc with _ | m
        · exact ih (some b) rfl
        · show (List.foldl _
              (if m.createdAt < b.createdAt then some b else some m)
              l2).isSome = true
          exact ih _ (by split <;> rfl)
    have := hsome (some a) l rfl
    simp only [List.foldl_cons] at h
    rw [h] at this
    simp at this

/-- C5: under sequential calls, `GetOrCreateDaily` returns `created = true`
exactly when no note with the deterministic daily title existed — in that
case the note it returns carries that title and kind `daily` — and an
immediately repeated call returns the very same note with
`created = false` and an unchanged store. -/
theorem C5_daily_note_once (db : DB) (u : Nat) (d : List Char)
    (n : Note) (c : Bool) (db1 : DB)
    (h : NoteSvc.getOrCreateDailyNote db u d = Except.ok (n, c, db1)) :
    (c = true ↔ NoteRepo.findByTitle db u (NoteSvc.dailyTitle d) = none) ∧
    (c = true → n.title = NoteSvc.dailyTitle d ∧ n.noteType = NoteType.daily) ∧
    (c = false → db1 = db) ∧
    NoteSvc.getOrCreateDailyNote db1 u d = Except.ok (n, false, db1) := by
  rw [NoteSvc.getOrCreateDailyNote] at h
  rcases hft : NoteRepo.findByTitle db u (NoteSvc.dailyTitle d) with _ | m
  · rw [hft] at h
    simp only [] at h
    rcases hcr : NoteSvc.create db u
        { title := NoteSvc.dailyTitle d, content := [],
          noteType := some NoteType.daily } with e | ⟨n2, db2⟩ <;>
      rw [hcr] at h
    · exact absurd h (by simp)
    · simp only [Except.ok.injEq, Prod.mk.injEq] at h
      obtain ⟨rfl, rfl, rfl⟩ := h
      rw [NoteSvc.create] at hcr
      split at hcr
      · exact absurd hcr (by simp)
      · simp only [Except.ok.injEq, Prod.mk.injEq] at hcr
        obtain ⟨rfl, rfl⟩ := hcr
        simp only [Option.getD_some]
        set cr := NoteRepo.create db u (NoteSvc.dailyTitle d) []
          NoteType.daily with hcr2
        set dbf := ActivityRepo.create (NoteSvc.processLinks cr.2 u cr.1) u
          (some cr.1.id) ActionType.create with hdbf
        have hnotes : dbf.notes = db.notes ++ [cr.1] := by
          rw [hdbf]
          show (NoteSvc.processLinks cr.2 u cr.1).notes = _
          rw [processLinks_notes, hcr2]
          rfl
        have hft2 : NoteRepo.findByTitle dbf u (NoteSvc.dailyTitle d) =
            some cr.1 := by
          rw [NoteRepo.findByTitle, hnotes, List.filter_append]
          rw [NoteRepo.findByTitle] at hft
          rw [latestCreated_none hft]
          have hp : (cr.1.userId == u && cr.1.title == NoteSvc.dailyTitle d &&
              !cr.1.isDeleted) = true := by
            rw [hcr2]
            simp [NoteRepo.create]
          simp only [List.nil_append, List.filter_cons, hp, if_true]
          rfl
        refine ⟨by simp, fun hc => ⟨rfl, rfl⟩, by simp, ?_⟩
        rw [NoteSvc.getOrCreateDailyNote, hft2]
  · rw [hft] at h
    simp only [Except.ok.injEq, Prod.mk.injEq] at h
    obtain ⟨rfl, rfl, rfl⟩ := h
    refine ⟨by simp [hft], by simp, fun hc => rfl, ?_⟩
    rw [NoteSvc.getOrCreateDailyNote, hft]
theorem list_result_mem {db : DB} {u : Nat} {filter : NoteRepo.NoteFilter}
    {fts : List Char → List Char → List Char → Bool}
    {res : List Note × Nat}
    (h : NoteRepo.list db u filter fts = Except.ok res)
    {m : Note} (hm : m ∈ res.1) :
    m ∈ db.notes ∧ m.userId = u ∧ m.isDeleted = false := by
  rw [NoteRepo.list] at h
  split at h
  · split at h
    · exact absurd h (by simp)
    · simp only [Except.ok.injEq] at h
      obtain rfl := h.symm
      have h1 := List.drop_subset _ _ (List.take_subset _ _ (α := Note) hm)
      have h2 := mem_sortByLe h1
      have h3 := List.mem_filter.mp h2
      have hall := h3.2
      simp only [Bool.and_eq_true] at hall
      have hu := hall.1.1.1.1
      have hd := hall.1.1.1.2
      simp only [beq_iff_eq] at hu
      simp only [Bool.not_eq_true'] at hd
      exact ⟨h3.1, hu, hd⟩
  · split at h
    · exact absurd h (by simp)
    · simp only [Except.ok.injEq] at h
      obtain rfl := h.symm
      have h1 := List.drop_subset _ _ (List.take_subset _ _ (α := Note) hm)
      have h2 := mem_sortByLe h1
      have h3 := List.mem_filter.mp h2
      have hall := h3.2
      simp only [Bool.and_eq_true] at hall
      have hu := hall.1.1.1.1
      have hd := hall.1.1.1.2
      simp only [beq_iff_eq] at hu
      simp only [Bool.not_eq_true'] at hd
      exact ⟨h3.1, hu, hd⟩
/-- C6: after `Delete`, no listing returns the note and `Get` is NotFound;
after a subsequent `Restore`, `Get` succeeds again with title, content and
access count unchanged from before the deletion, while none of the
pre-deletion link edges survive (they were removed with the delete and are
not restored). -/
theorem C6_delete_restore (db : DB) (u nid : Nat) (n0 : Note) (db1 db2 : DB)
    (hwf : WfDB db)
    (hfind : NoteRepo.findByID db u nid = some n0)
    (hdel : NoteSvc.delete db u nid = Except.ok db1)
    (hres : NoteSvc.restore db1 u nid = Except.ok db2) :
    NoteSvc.getByID db1 u nid = Except.error Err.notFound ∧
    (∀ filter fts res, NoteSvc.list db1 u filter fts = Except.ok res →
      ∀ m ∈ res.1, m.id ≠ nid) ∧
    (∃ n1 db3, NoteSvc.getByID db2 u nid = Except.ok (n1, db3) ∧
      n1.title = n0.title ∧ n1.content = n0.content ∧
      n1.accessCount = n0.accessCount) ∧
    (∀ l ∈ db2.links, l.sourceNoteId ≠ nid ∧ l.targetNoteId ≠ nid) := by
  have hmem0 := List.mem_of_find?_eq_some hfind
  have hp0 := List.find?_some hfind
  simp only [Bool.and_eq_true, beq_iff_eq, Bool.not_eq_true'] at hp0
  obtain ⟨⟨hid0, hu0⟩, hdel0⟩ := hp0
  -- unpack the delete into component equations
  rw [NoteSvc.delete, NoteRepo.delete] at hdel
  split at hdel
  case h_1 => exact absurd hdel (by simp)
  rename_i dbX hX
  split at hX
  case isFalse => exact absurd hX (by simp)
  simp only [Except.ok.injEq] at hX hdel
  have h1notes : db1.notes = db.notes.map (fun n =>
      if n.id == nid && n.userId == u && !n.isDeleted
      then { n with
             isDeleted := true
             deletedAt := some db.clock
             updatedAt := db.clock }
      else n) := by
    rw [← hdel]
    show (LinkRepo.deleteByNote dbX u nid).notes = _
    show dbX.notes = _
    rw [← hX]
  have h1links : db1.links = db.links.filter (fun l =>
      !(l.userId == u &&
        (l.sourceNoteId == nid || l.targetNoteId == nid))) := by
    rw [← hdel]
    show (LinkRepo.deleteByNote dbX u nid).links = _
    rw [LinkRepo.deleteByNote]
    show dbX.links.filter _ = _
    rw [← hX]
  -- the deleted row is invisible to FindByID
  have hN : NoteRepo.findByID db1 u nid = none := by
    rw [NoteRepo.findByID, h1notes, List.find?_eq_none]
    intro m hm
    obtain ⟨m0, hm0, rfl⟩ := List.mem_map.mp hm
    by_cases hc : (m0.id == nid && m0.userId == u && !m0.isDeleted) = true
    · rw [if_pos hc]
      simp
    · rw [if_neg hc]
      exact fun habs => hc habs
  -- unpack the restore into component equations
  rw [NoteSvc.restore, NoteRepo.restore] at hres
  split at hres
  case isFalse => exact absurd hres (by simp)
  simp only [Except.ok.injEq] at hres
  have h2notes : db2.notes = db1.notes.map (fun n =>
      if n.id == nid && n.userId == u && n.isDeleted
      then { n with
             isDeleted := false
             deletedAt := none
             updatedAt := db1.clock }
      else n) := by
    rw [← hres]
  have h2links : db2.links = db1.links := by rw [← hres]
  refine ⟨?_, ?_, ?_, ?_⟩
  · rw [NoteSvc.getByID, hN]
  · intro filter fts res hlist m hm
    obtain ⟨hmm, hmu, hmd⟩ := list_result_mem hlist hm
    rw [h1notes] at hmm
    obtain ⟨m0, hm0, rfl⟩ := List.mem_map.mp hmm
    by_cases hc : (m0.id == nid && m0.userId == u && !m0.isDeleted) = true
    · rw [if_pos hc] at hmd
      simp at hmd
    · rw [if_neg hc] at hmd hmu ⊢
      intro hmid
      apply hc
      simp [hmid, hmu, hmd]
  · -- the restored row and its lookup
    have hcondmark : (n0.id == nid && n0.userId == u && !n0.isDeleted) = true := by
      simp [hid0, hu0, hdel0]
    have hcomp : ∀ m0 : Note, m0 = n0 →
        ((fun n : Note =>
          if n.id == nid && n.userId == u && n.isDeleted
          then { n with
                 isDeleted := false
                 deletedAt := none
                 updatedAt := db1.clock }
          else n) ∘ (fun n : Note =>
          if n.id == nid && n.userId == u && !n.isDeleted
          then { n with
                 isDeleted := true
                 deletedAt := some db.clock
                 updatedAt := db.clock }
          else n)) m0 =
        { n0 with
          isDeleted := false
          deletedAt := none
          updatedAt := db1.clock } := by
      rintro m0 rfl
      simp only [Function.comp_apply]
      rw [if_pos hcondmark]
      rw [if_pos (by simp [hid0, hu0])]
    have hfind2 : NoteRepo.findByID db2 u nid =
        some { n0 with
          isDeleted := false
          deletedAt := none
          updatedAt := db1.clock } := by
      rw [NoteRepo.findByID]
      apply find?_eq_of_unique
      · rw [h2notes, h1notes, List.map_map]
        rw [← hcomp n0 rfl]
        exact List.mem_map_of_mem _ hmem0
      · simp [hid0, hu0]
      · intro y hy hpy
        rw [h2notes, h1notes, List.map_map] at hy
        obtain ⟨m0, hm0, rfl⟩ := List.mem_map.mp hy
        have hidp : (((fun n : Note =>
            if n.id == nid && n.userId == u && n.isDeleted
            then { n with
                   isDeleted := false
                   deletedAt := none
                   updatedAt := db1.clock }
            else n) ∘ (fun n : Note =>
            if n.id == nid && n.userId == u && !n.isDeleted
            then { n with
                   isDeleted := true
                   deletedAt := some db.clock
                   updatedAt := db.clock }
            else n)) m0).id = m0.id := by
          simp only [Function.comp_apply]
          split <;> split <;> rfl
        have hpy1 := (Bool.and_eq_true _ _).mp hpy
        have hpy2 := (Bool.and_eq_true _ _).mp hpy1.1
        have hm0id : m0.id = nid := by
          rw [← hidp]
          exact beq_iff_eq.mp hpy2.1
        have hm0n0 : m0 = n0 :=
          List.inj_on_of_nodup_map hwf.1 hm0 hmem0 (by rw [hm0id, hid0])
        exact hcomp m0 hm0n0
    refine ⟨{ n0 with
      isDeleted := false
      deletedAt := none
      updatedAt := db1.clock },
      ActivityRepo.create (NoteRepo.updateAccessCount db2 u nid) u
        (some ({ n0 with
          isDeleted := false
          deletedAt := none
          updatedAt := db1.clock } : Note).id) ActionType.view,
      ?_, rfl, rfl, rfl⟩
    rw [NoteSvc.getByID, hfind2]
  · intro l hl
    rw [h2links, h1links] at hl
    obtain ⟨hlin, hsurv⟩ := List.mem_filter.mp hl
    simp only [Bool.not_eq_true', Bool.and_eq_false_iff, beq_eq_false_iff_ne,
      ne_eq, Bool.or_eq_false_iff] at hsurv
    rcases hsurv with hne | ⟨hs, ht⟩
    · -- the edge's owner is not u; but wf forces it to be u if it touches nid
      constructor
      · intro hsrc
        obtain ⟨sn, hsmem, hsid, hsuser⟩ := hwf.2.2.1 l hlin
        have hsn0 : sn = n0 := List.inj_on_of_nodup_map hwf.1 hsmem hmem0
          (by rw [hsid, hsrc, hid0])
        exact hne (by rw [← hsuser, hsn0, hu0])
      · intro htgt
        obtain ⟨tn, htmem, htid, htuser⟩ := hwf.2.2.2 l hlin
        have htn0 : tn = n0 := List.inj_on_of_nodup_map hwf.1 htmem hmem0
          (by rw [htid, htgt, hid0])
        exact hne (by rw [← htuser, htn0, hu0])
    · exact ⟨hs, ht⟩
theorem filter_filter_of {α : Type} {l : List α} {p q : α → Bool}
    (h : ∀ a ∈ l, p a = true → q a = true) :
    (l.filter q).filter p = l.filter p := by
  induction l with
  | nil => rfl
  | cons a l ih =>
    have ih2 := ih (fun b hb => h b (List.mem_cons_of_mem a hb))
    by_cases hp : p a = true
    · have hq := h a (List.mem_cons_self a l) hp
      simp only [List.filter_cons, hq, hp, if_true, ih2]
    · by_cases hq : q a = true <;>
        simp [List.filter_cons, hq, hp, ih2]

/-- A soft-deleted note is, by the unique-id argument, never the row some
other query returned: helper giving `m.id ≠ n.id` for any live row `m`. -/
theorem live_ne_deleted {db : DB} {n m : Note} (hwf : WfDB db)
    (hn : n ∈ db.notes) (hdel : n.isDeleted = true)
    (hm : m ∈ db.notes) (hlive : m.isDeleted = false) : m.id ≠ n.id := by
  intro hid
  have := List.inj_on_of_nodup_map hwf.1 hm hn hid
  rw [this, hdel] at hlive
  exact absurd hlive (by simp)

/-- C3 amended: for every owner and soft-deleted note, find-by-id returns
NotFound and listings, trending, forgotten, per-user stats and the
tags-of-note listing exclude it — but per-tag note counts do *not* exclude
it: `ListWithNoteCount` counts raw `note_tags` attachment rows with no
soft-delete predicate, so the deleted note's attachments stay counted until
the rows are removed by a hard delete. -/
theorem C3_soft_delete_amended (db : DB) (n : Note)
    (hwf : WfDB db) (hn : n ∈ db.notes) (hdel : n.isDeleted = true) :
    NoteRepo.findByID db n.userId n.id = none ∧
    NoteSvc.getByID db n.userId n.id = Except.error Err.notFound ∧
    (∀ filter fts res, NoteSvc.list db n.userId filter fts = Except.ok res →
      ∀ m ∈ res.1, m.id ≠ n.id) ∧
    (∀ lim, ∀ m ∈ ActivityRepo.getTrendingNotes db n.userId lim,
      m.id ≠ n.id) ∧
    (∀ cutoff lim,
      ∀ m ∈ ActivityRepo.getForgottenNotes db n.userId cutoff lim,
      m.id ≠ n.id) ∧
    (∀ isToday inWeek,
      ActivityRepo.getUserStats db n.userId isToday inWeek =
      ActivityRepo.getUserStats
        { db with notes := db.notes.filter (fun m => !(m == n)) }
        n.userId isToday inWeek) ∧
    TagSvc.getByNote db n.userId n.id = Except.error Err.notFound ∧
    (∀ page limit res,
      TagSvc.listTags db n.userId page limit = Except.ok res →
      ∀ tc ∈ res.1, tc.2 =
        (db.noteTags.filter (fun nt => nt.tagId == tc.1.id)).length) := by
  have hfind : NoteRepo.findByID db n.userId n.id = none := by
    rw [NoteRepo.findByID, List.find?_eq_none]
    intro m hm hp
    simp only [Bool.and_eq_true, beq_iff_eq, Bool.not_eq_true'] at hp
    exact live_ne_deleted hwf hn hdel hm hp.2 hp.1.1
  refine ⟨hfind, by rw [NoteSvc.getByID, hfind], ?_, ?_, ?_, ?_,
    by rw [TagSvc.getByNote, hfind], ?_⟩
  · intro filter fts res hlist m hm
    obtain ⟨hmm, hmu, hmd⟩ := list_result_mem hlist hm
    exact live_ne_deleted hwf hn hdel hmm hmd
  · intro lim m hm
    rw [ActivityRepo.getTrendingNotes] at hm
    have h1 := mem_sortByLe (List.take_subset _ _ hm)
    have h2 := List.mem_filter.mp h1
    have h3 := h2.2
    simp only [Bool.and_eq_true, beq_iff_eq, Bool.not_eq_true'] at h3
    exact live_ne_deleted hwf hn hdel h2.1 h3.2
  · intro cutoff lim m hm
    rw [ActivityRepo.getForgottenNotes] at hm
    have h1 := mem_sortByLe (List.take_subset _ _ hm)
    have h2 := List.mem_filter.mp h1
    have h3 := h2.2
    simp only [Bool.and_eq_true, beq_iff_eq, Bool.not_eq_true'] at h3
    exact live_ne_deleted hwf hn hdel h2.1 h3.1.2
  · intro isToday inWeek
    rw [ActivityRepo.getUserStats, ActivityRepo.getUserStats]
    have hff : (db.notes.filter (fun m => !(m == n))).filter
        (fun m => m.userId == n.userId && !m.isDeleted) =
        db.notes.filter (fun m => m.userId == n.userId && !m.isDeleted) := by
      apply filter_filter_of
      intro a ha hp
      simp only [Bool.and_eq_true, Bool.not_eq_true'] at hp
      simp only [Bool.not_eq_true', beq_eq_false_iff_ne, ne_eq]
      intro heq
      rw [heq, hdel] at hp
      exact absurd hp.2 (by simp)
    rw [hff]
  · intro page limit res hlist tc htc
    rw [TagSvc.listTags, TagRepo.listWithNoteCount] at hlist
    split at hlist
    · exact absurd hlist (by simp)
    · simp only [Except.ok.injEq] at hlist
      obtain rfl := hlist.symm
      have h1 := List.drop_subset _ _ (List.take_subset _ _ htc)
      obtain ⟨t0, ht0, rfl⟩ := List.mem_map.mp h1
      rfl
/-! ## Concrete scenario states (built through the service API) -/

/-- One note "Alpha" (owner 1, empty content). -/
def dbAlpha : DB :=
  match NoteSvc.create emptyDB 1
      { title := "Alpha".data, content := [], noteType := none } with
  | Except.ok (_, d) => d
  | Except.error _ => emptyDB

/-- The stored "Alpha" row of `dbAlpha`. -/
def noteAlpha : Note :=
  { id := 0, userId := 1, title := "Alpha".data, content := [],
    noteType := NoteType.note, wordCount := 0, readingTimeMinutes := 0,
    isDeleted := false, deletedAt := none, createdAt := 0, updatedAt := 0,
    lastAccessedAt := none, accessCount := 0 }

/-- One tag "work" (owner 1). -/
def dbWork : DB :=
  match TagSvc.create emptyDB 1 { name := "work".data, color := none } with
  | Except.ok (_, d) => d
  | Except.error _ => emptyDB

/-- The stored "work" row of `dbWork`. -/
def tagWork : TagRow :=
  { id := 0, userId := 1, name := "work".data, color := none, createdAt := 0 }

/-- `dbAlpha`, plus tag "work" attached to "Alpha", with "Alpha" then
soft-deleted. -/
def dbC3 : DB :=
  match TagSvc.create dbAlpha 1 { name := "work".data, color := none } with
  | Except.ok (_, d1) =>
    match TagSvc.addToNote d1 1 0 2 with
    | Except.ok d2 =>
      match NoteSvc.delete d2 1 0 with
      | Except.ok d3 => d3
      | Except.error _ => emptyDB
    | Except.error _ => emptyDB
  | Except.error _ => emptyDB

/-- The soft-deleted "Alpha" row of `dbC3`. -/
def noteAlphaC3 : Note :=
  { noteAlpha with isDeleted := true, deletedAt := some 4, updatedAt := 4 }

/-- `dbAlpha` after `Delete(1, 0)`. -/
def dbAlphaDel : DB :=
  match NoteSvc.delete dbAlpha 1 0 with
  | Except.ok d => d
  | Except.error _ => emptyDB

/-- `dbAlphaDel` after `Restore(1, 0)`. -/
def dbAlphaRes : DB :=
  match NoteSvc.restore dbAlphaDel 1 0 with
  | Except.ok d => d
  | Except.error _ => emptyDB

/-- The state after the first `GetOrCreateDaily(1, "2025-01-15")`. -/
def dbDaily : DB :=
  match NoteSvc.getOrCreateDailyNote emptyDB 1 "2025-01-15".data with
  | Except.ok (_, _, d) => d
  | Except.error _ => emptyDB

/-- The daily note created in `dbDaily`. -/
def noteDaily : Note :=
  { id := 0, userId := 1, title := "Daily Note - 2025-01-15".data,
    content := [], noteType := NoteType.daily, wordCount := 0,
    readingTimeMinutes := 0, isDeleted := false, deletedAt := none,
    createdAt := 0, updatedAt := 0, lastAccessedAt := none, accessCount := 0 }

/-! ## Claim results: closed theorems and witnesses -/

/-- C2 (code/spec divergence at a concrete input): creating a note with
content `" hello"` stores `word_count = 2` — the trigger's
`regexp_split_to_array(' hello', '\s+')` returns `{"", "hello"}` and the
empty leading field is counted, despite the trigger's own comment saying it
filters empty strings out — while the content has exactly 1
whitespace-delimited token, so the claimed `word_count` is 1.  A subsequent
`Get` returns the stored `(2, ceil(2/200)) = (2, 1)`. -/
theorem C2_word_count_trigger_eval :
    (match NoteSvc.create emptyDB 1
        { title := "t".data, content := " hello".data, noteType := none } with
     | Except.ok (_, d) =>
       (match NoteSvc.getByID d 1 0 with
        | Except.ok (n, _) => some (n.wordCount, n.readingTimeMinutes)
        | Except.error _ => none)
     | Except.error _ => none) = some (2, 1) ∧
    specTokenCount " hello".data = 1 ∧
    pgWordCount " hello".data = 2 := by decide

/-- C3 counterexample: in `dbC3` the note (id 0) is soft-deleted and `Get`
on it is NotFound, yet the per-tag note count for tag "work" (id 2) is 1 —
counting the soft-deleted note's attachment — where the claim requires 0. -/
theorem C3_counterexample :
    noteAlphaC3 ∈ dbC3.notes ∧ noteAlphaC3.isDeleted = true ∧
    NoteSvc.getByID dbC3 1 0 = Except.error Err.notFound ∧
    dbC3.noteTags.map (fun nt => (nt.noteId, nt.tagId)) = [(0, 2)] ∧
    (TagSvc.listTags dbC3 1 1 20).toOption.map
      (fun p => p.1.map (fun tc => (tc.1.id, tc.2))) = some [(2, 1)] := by
  decide

/-- C3 witness for the amended theorem, at the `dbC3` scenario. -/
theorem C3_soft_delete_amended_witness :
    WfDB dbC3 ∧ noteAlphaC3 ∈ dbC3.notes ∧ noteAlphaC3.isDeleted = true ∧
    (NoteRepo.findByID dbC3 noteAlphaC3.userId noteAlphaC3.id = none ∧
     NoteSvc.getByID dbC3 noteAlphaC3.userId noteAlphaC3.id =
       Except.error Err.notFound ∧
     (∀ filter fts res,
        NoteSvc.list dbC3 noteAlphaC3.userId filter fts = Except.ok res →
        ∀ m ∈ res.1, m.id ≠ noteAlphaC3.id) ∧
     (∀ lim, ∀ m ∈ ActivityRepo.getTrendingNotes dbC3 noteAlphaC3.userId lim,
        m.id ≠ noteAlphaC3.id) ∧
     (∀ cutoff lim,
        ∀ m ∈ ActivityRepo.getForgottenNotes dbC3 noteAlphaC3.userId
          cutoff lim, m.id ≠ noteAlphaC3.id) ∧
     (∀ isToday inWeek,
        ActivityRepo.getUserStats dbC3 noteAlphaC3.userId isToday inWeek =
        ActivityRepo.getUserStats
          { dbC3 with
            notes := dbC3.notes.filter (fun m => !(m == noteAlphaC3)) }
          noteAlphaC3.userId isToday inWeek) ∧
     TagSvc.getByNote dbC3 noteAlphaC3.userId noteAlphaC3.id =
       Except.error Err.notFound ∧
     (∀ page limit res,
        TagSvc.listTags dbC3 noteAlphaC3.userId page limit = Except.ok res →
        ∀ tc ∈ res.1, tc.2 =
          (dbC3.noteTags.filter (fun nt => nt.tagId == tc.1.id)).length)) :=
  ⟨by decide, by decide, by decide,
   C3_soft_delete_amended dbC3 noteAlphaC3 (by decide) (by decide) (by decide)⟩

/-- C5 witness: the concrete daily-note round trip on the empty store. -/
theorem C5_daily_note_once_witness :
    NoteSvc.getOrCreateDailyNote emptyDB 1 "2025-01-15".data =
      Except.ok (noteDaily, true, dbDaily) ∧
    ((true = true ↔
      NoteRepo.findByTitle emptyDB 1
        (NoteSvc.dailyTitle "2025-01-15".data) = none) ∧
     (true = true → noteDaily.title = NoteSvc.dailyTitle "2025-01-15".data ∧
       noteDaily.noteType = NoteType.daily) ∧
     (true = false → dbDaily = emptyDB) ∧
     NoteSvc.getOrCreateDailyNote dbDaily 1 "2025-01-15".data =
       Except.ok (noteDaily, false, dbDaily)) :=
  ⟨by decide,
   C5_daily_note_once emptyDB 1 "2025-01-15".data noteDaily true dbDaily
     (by decide)⟩

/-- C6 witness: delete then restore "Alpha" in the concrete store. -/
theorem C6_delete_restore_witness :
    WfDB dbAlpha ∧ NoteRepo.findByID dbAlpha 1 0 = some noteAlpha ∧
    NoteSvc.delete dbAlpha 1 0 = Except.ok dbAlphaDel ∧
    NoteSvc.restore dbAlphaDel 1 0 = Except.ok dbAlphaRes ∧
    (NoteSvc.getByID dbAlphaDel 1 0 = Except.error Err.notFound ∧
     (∀ filter fts res,
        NoteSvc.list dbAlphaDel 1 filter fts = Except.ok res →
        ∀ m ∈ res.1, m.id ≠ 0) ∧
     (∃ n1 db3, NoteSvc.getByID dbAlphaRes 1 0 = Except.ok (n1, db3) ∧
       n1.title = noteAlpha.title ∧ n1.content = noteAlpha.content ∧
       n1.accessCount = noteAlpha.accessCount) ∧
     (∀ l ∈ dbAlphaRes.links, l.sourceNoteId ≠ 0 ∧ l.targetNoteId ≠ 0)) :=
  ⟨by decide, by decide, by decide, by decide,
   C6_delete_restore dbAlpha 1 0 noteAlpha dbAlphaDel dbAlphaRes
     (by decide) (by decide) (by decide) (by decide)⟩

/-- C7 witness: owner 2 addressing owner 1's note. -/
theorem C7_cross_owner_not_found_witness :
    WfDB dbAlpha ∧ noteAlpha ∈ dbAlpha.notes ∧ noteAlpha.userId ≠ 2 ∧
    (NoteSvc.getByID dbAlpha 2 noteAlpha.id = Except.error Err.notFound ∧
     ∀ tg, TagSvc.addToNote dbAlpha 2 noteAlpha.id tg =
       Except.error Err.notFound) :=
  ⟨by decide, by decide, by decide,
   C7_cross_owner_not_found dbAlpha 2 noteAlpha (by decide) (by decide)
     (by decide)⟩

/-- C8 witness: a second `CreateTag("work")` against `dbWork`. -/
theorem C8_duplicate_tag_conflict_witness :
    validateCreateTag { name := "work".data, color := none } = true ∧
    TagRepo.findByName dbWork 1 "work".data = some tagWork ∧
    (TagSvc.create dbWork 1 { name := "work".data, color := none } =
       Except.error Err.conflict ∧
     Err.conflict ≠ Err.validation ∧ Err.conflict ≠ Err.notFound ∧
     (∀ t db2, TagSvc.create dbWork 1 { name := "work".data, color := none } ≠
       Except.ok (t, db2))) :=
  ⟨by decide, by decide,
   C8_duplicate_tag_conflict dbWork 1 { name := "work".data, color := none }
     (by decide) tagWork (by decide)⟩

/-- C10 witness: `Get` on the stored "Alpha" row. -/
theorem C10_get_returns_prebump_witness :
    NoteRepo.findByID dbAlpha 1 0 = some noteAlpha ∧
    (∃ db2, NoteSvc.getByID dbAlpha 1 0 = Except.ok (noteAlpha, db2) ∧
      NoteRepo.findByID db2 1 0 = some
        { noteAlpha with
          accessCount := noteAlpha.accessCount + 1
          lastAccessedAt := some dbAlpha.clock
          updatedAt := dbAlpha.clock }) :=
  ⟨by decide, C10_get_returns_prebump dbAlpha 1 0 noteAlpha (by decide)⟩
theorem findByTitle_congr {db db' : DB} (h : db.notes = db'.notes)
    (u : Nat) (t : List Char) :
    NoteRepo.findByTitle db u t = NoteRepo.findByTitle db' u t := by
  rw [NoteRepo.findByTitle, NoteRepo.findByTitle, h]

/-- One step of the reconciliation fold of `processLinks` (the same
function as the lambda in its body). -/
def plStep (u : Nat) (note : Note) (db : DB) (l : ParsedLink) : DB :=
  match NoteRepo.findByTitle db u l.title with
  | none => db
  | some target => LinkRepo.create db u note.id target.id (some l.context)

theorem processLinks_eq_foldl (db : DB) (u : Nat) (note : Note) :
    NoteSvc.processLinks db u note =
      (extractLinks note.content).foldl (plStep u note) db := rfl

/-- What one reconciliation pass does to the edge set: it preserves the
note rows, never removes an edge, and every edge it adds is an edge of the
owner from the source note to a note some reference's title resolves to;
conversely every resolvable reference ends up covered by an edge. -/
theorem processLinks_spec (u : Nat) (note : Note) :
    ∀ (refs : List ParsedLink) (db0 : DB),
    (refs.foldl (plStep u note) db0).notes = db0.notes ∧
    (∀ l ∈ db0.links, l ∈ (refs.foldl (plStep u note) db0).links) ∧
    (∀ l ∈ (refs.foldl (plStep u note) db0).links,
      l ∈ db0.links ∨ (l.userId = u ∧ l.sourceNoteId = note.id ∧
        ∃ ref ∈ refs, ∃ tn, NoteRepo.findByTitle db0 u ref.title = some tn ∧
          tn.id = l.targetNoteId)) ∧
    (∀ ref ∈ refs, ∀ tn, NoteRepo.findByTitle db0 u ref.title = some tn →
      ∃ l ∈ (refs.foldl (plStep u note) db0).links,
        l.sourceNoteId = note.id ∧ l.targetNoteId = tn.id) := by
  intro refs
  induction refs with
  | nil =>
    intro db0
    exact ⟨rfl, fun l hl => hl, fun l hl => Or.inl hl, fun ref h => absurd h
      (by simp)⟩
  | cons r rs ih =>
    intro db0
    rw [List.foldl_cons]
    rcases hr : NoteRepo.findByTitle db0 u r.title with _ | tgt
    · -- unresolved reference: the step is a no-op
      have hstep : plStep u note db0 r = db0 := by
        unfold plStep
        rw [hr]
      rw [hstep]
      obtain ⟨ihn, ihmono, ihchar, ihcov⟩ := ih db0
      refine ⟨ihn, ihmono, ?_, ?_⟩
      · intro l hl
        rcases ihchar l hl with h1 | ⟨h1, h2, ref, href, h3⟩
        · exact Or.inl h1
        · exact Or.inr ⟨h1, h2, ref, List.mem_cons_of_mem r href, h3⟩
      · intro ref href tn htn
        rcases List.mem_cons.mp href with rfl | href2
        · rw [hr] at htn
          exact absurd htn (by simp)
        · exact ihcov ref href2 tn htn
    · -- resolved: insert (or absorb) the edge, then continue
      have hstep : plStep u note db0 r =
          LinkRepo.create db0 u note.id tgt.id (some r.context) := by
        unfold plStep
        rw [hr]
      rw [hstep]
      set db1 := LinkRepo.create db0 u note.id tgt.id (some r.context)
        with hdb1
      have hnotes1 : db1.notes = db0.notes := linkCreate_notes _ _ _ _ _
      have hft1 : ∀ t2, NoteRepo.findByTitle db1 u t2 =
          NoteRepo.findByTitle db0 u t2 :=
        fun t2 => findByTitle_congr hnotes1 u t2
      have hmono1 : ∀ l ∈ db0.links, l ∈ db1.links := by
        intro l hl
        rw [hdb1, LinkRepo.create]
        split
        · exact hl
        · exact List.mem_append_left _ hl
      have hchar1 : ∀ l ∈ db1.links, l ∈ db0.links ∨
          (l.userId = u ∧ l.sourceNoteId = note.id ∧
            l.targetNoteId = tgt.id) := by
        intro l hl
        rw [hdb1, LinkRepo.create] at hl
        split at hl
        · exact Or.inl hl
        · rcases List.mem_append.mp hl with h1 | h1
          · exact Or.inl h1
          · simp only [List.mem_singleton] at h1
            subst h1
            exact Or.inr ⟨rfl, rfl, rfl⟩
      have hcov1 : ∃ l ∈ db1.links,
          l.sourceNoteId = note.id ∧ l.targetNoteId = tgt.id := by
        rw [hdb1, LinkRepo.create]
        split
        · rename_i hex
          obtain ⟨l0, hl0, hp⟩ := List.any_eq_true.mp hex
          simp only [Bool.and_eq_true, beq_iff_eq] at hp
          exact ⟨l0, hl0, hp.1, hp.2⟩
        · refine ⟨_, List.mem_append_right _ (List.mem_singleton.mpr rfl),
            rfl, rfl⟩
      obtain ⟨ihn, ihmono, ihchar, ihcov⟩ := ih db1
      refine ⟨ihn.trans hnotes1, ?_, ?_, ?_⟩
      · intro l hl
        exact ihmono l (hmono1 l hl)
      · intro l hl
        rcases ihchar l hl with h1 | ⟨h1, h2, ref, href, tn, htn, h3⟩
        · rcases hchar1 l h1 with h2 | ⟨h2, h3, h4⟩
          · exact Or.inl h2
          · exact Or.inr ⟨h2, h3, r, List.mem_cons_self r rs,
              tgt, hr, h4.symm⟩
        · rw [hft1] at htn
          exact Or.inr ⟨h1, h2, ref, List.mem_cons_of_mem r href,
            tn, htn, h3⟩
      · intro ref href tn htn
        rcases List.mem_cons.mp href with rfl | href2
        · rw [hr] at htn
          rw [Option.some_inj] at htn
          subst htn
          obtain ⟨l, hl, h1, h2⟩ := hcov1
          exact ⟨l, ihmono l hl, h1, h2⟩
        · exact ihcov ref href2 tn (by rw [hft1]; exact htn)
/-- A note row pins the ownership of every edge that touches it, by the
edge/endpoint owner agreement of `WfDB` and the uniqueness of note ids. -/
theorem links_touch_owner {db : DB} {u nid : Nat} {n0 : Note}
    (hwf : WfDB db) (hmem : n0 ∈ db.notes) (hid : n0.id = nid)
    (hu : n0.userId = u) :
    ∀ l ∈ db.links,
      (l.sourceNoteId = nid → l.userId = u) ∧
      (l.targetNoteId = nid → l.userId = u) := by
  intro l hl
  constructor
  · intro hs
    obtain ⟨s, hsmem, hsid, hsu⟩ := hwf.2.2.1 l hl
    have hsn : s = n0 :=
      List.inj_on_of_nodup_map hwf.1 hsmem hmem (by rw [hsid, hs, hid])
    rw [← hsu, hsn, hu]
  · intro ht
    obtain ⟨t, htmem, htid, htu⟩ := hwf.2.2.2 l hl
    have htn : t = n0 :=
      List.inj_on_of_nodup_map hwf.1 htmem hmem (by rw [htid, ht, hid])
    rw [← htu, htn, hu]

/-- When every edge touching the note belongs to the caller,
`DeleteByNote`'s filter leaves no edge touching the note on either side. -/
theorem no_touch_of_owner {links : List LinkRow} {u nid : Nat}
    (howner : ∀ l ∈ links,
      (l.sourceNoteId = nid → l.userId = u) ∧
      (l.targetNoteId = nid → l.userId = u)) :
    ∀ l ∈ links.filter (fun l =>
        !(l.userId == u &&
          (l.sourceNoteId == nid || l.targetNoteId == nid))),
      l.sourceNoteId ≠ nid ∧ l.targetNoteId ≠ nid := by
  intro l hl
  obtain ⟨hlin, hsurv⟩ := List.mem_filter.mp hl
  constructor
  · intro hs
    have hu := (howner l hlin).1 hs
    simp [hu, hs] at hsurv
  · intro ht
    have hu := (howner l hlin).2 ht
    simp [hu, ht] at hsurv

/-- C1: after a successful `Update` of note `nid`, the stored edge set
carries no incoming edge to the note other than a freshly reinserted
self-edge (in particular every pre-existing incoming edge is gone), and
the targets of the note's outgoing edges are exactly the notes that some
reference extracted from the new content resolves to by exact same-owner
title lookup. -/
theorem C1_update_rewires_links (db : DB) (u nid : Nat)
    (req : UpdateNoteRequest) (n1 : Note) (db1 : DB)
    (hwf : WfDB db)
    (hupd : NoteSvc.update db u nid req = Except.ok (n1, db1)) :
    n1.id = nid ∧
    (∀ l ∈ db1.links, l.targetNoteId = nid → l.sourceNoteId = nid) ∧
    (∀ t, (∃ l ∈ db1.links, l.sourceNoteId = nid ∧ l.targetNoteId = t) ↔
      (∃ ref ∈ extractLinks n1.content, ∃ tn,
        NoteRepo.findByTitle db1 u ref.title = some tn ∧ tn.id = t)) := by
  rw [NoteSvc.update] at hupd
  split at hupd
  case isTrue => exact absurd hupd (by simp)
  split at hupd
  case h_1 => exact absurd hupd (by simp)
  rename_i note0 hf
  simp only [] at hupd
  split at hupd
  case h_1 => exact absurd hupd (by simp)
  rename_i note1 dbU hu2
  simp only [Except.ok.injEq, Prod.mk.injEq] at hupd
  obtain ⟨hn1, hdb1⟩ := hupd
  -- the loaded row
  rw [NoteRepo.findByID] at hf
  have hmem0 := List.mem_of_find?_eq_some hf
  have hp0 := List.find?_some hf
  simp only [Bool.and_eq_true, beq_iff_eq, Bool.not_eq_true'] at hp0
  obtain ⟨⟨hid0, hu0⟩, hlive0⟩ := hp0
  -- unpack the repository update into component equations
  rw [NoteRepo.update] at hu2
  split at hu2
  case h_1 => exact absurd hu2 (by simp)
  rename_i old hfq
  rw [hf] at hfq
  obtain rfl := (Option.some_inj.mp hfq).symm
  simp only [Except.ok.injEq, Prod.mk.injEq] at hu2
  obtain ⟨hupdrec, hdbU⟩ := hu2
  have hid1 : note1.id = nid := by
    rw [← hupdrec]
    exact hid0
  have hUlinks : dbU.links = db.links := by rw [← hdbU]
  -- every edge touching the note is the caller's, so none survives
  have howner := links_touch_owner hwf hmem0 hid0 hu0
  have hDlinks : (LinkRepo.deleteByNote dbU u nid).links =
      db.links.filter (fun l =>
        !(l.userId == u &&
          (l.sourceNoteId == nid || l.targetNoteId == nid))) := by
    rw [LinkRepo.deleteByNote]
    show dbU.links.filter _ = _
    rw [hUlinks]
  have hnt : ∀ l ∈ (LinkRepo.deleteByNote dbU u nid).links,
      l.sourceNoteId ≠ nid ∧ l.targetNoteId ≠ nid := by
    intro l hl
    rw [hDlinks] at hl
    exact no_touch_of_owner howner l hl
  -- the reconciliation pass over the new content
  obtain ⟨hPn, hPmono, hPchar, hPcov⟩ :=
    processLinks_spec u note1 (extractLinks note1.content)
      (LinkRepo.deleteByNote dbU u nid)
  have h1links : db1.links =
      ((extractLinks note1.content).foldl (plStep u note1)
        (LinkRepo.deleteByNote dbU u nid)).links := by
    rw [← hdb1]
    show (NoteSvc.processLinks (LinkRepo.deleteByNote dbU u nid) u
      note1).links = _
    rw [processLinks_eq_foldl]
  have h1notes : db1.notes = (LinkRepo.deleteByNote dbU u nid).notes := by
    rw [← hdb1]
    show (NoteSvc.processLinks (LinkRepo.deleteByNote dbU u nid) u
      note1).notes = _
    rw [processLinks_eq_foldl]
    exact hPn
  have hft : ∀ tt, NoteRepo.findByTitle db1 u tt =
      NoteRepo.findByTitle (LinkRepo.deleteByNote dbU u nid) u tt :=
    fun tt => findByTitle_congr h1notes u tt
  have hcontent : n1.content = note1.content := by rw [← hn1]
  refine ⟨by rw [← hn1]; exact hid1, ?_, ?_⟩
  · intro l hl htgt
    rw [h1links] at hl
    rcases hPchar l hl with hin | ⟨_, hsrc, _⟩
    · exact absurd htgt (hnt l hin).2
    · rw [hsrc, hid1]
  · intro t
    constructor
    · rintro ⟨l, hl, hsrc, htgt⟩
      rw [h1links] at hl
      rcases hPchar l hl with hin | ⟨_, _, ref, href, tn, htn, htnid⟩
      · exact absurd hsrc (hnt l hin).1
      · exact ⟨ref, by rw [hcontent]; exact href, tn,
          by rw [hft]; exact htn, by rw [htnid, htgt]⟩
    · rintro ⟨ref, href, tn, htn, htnid⟩
      rw [hcontent] at href
      rw [hft] at htn
      obtain ⟨l, hl, hsrc, htgt⟩ := hPcov ref href tn htn
      exact ⟨l, by rw [h1links]; exact hl, by rw [hsrc]; exact hid1,
        by rw [htgt, htnid]⟩
/-- Scenario for C1: "Alpha" plus a freshly created note "Beta" (owner 1). -/
def C1mk : Note × DB :=
  match NoteSvc.create dbAlpha 1
      { title := "Beta".data, content := [], noteType := none } with
  | Except.ok p => p
  | Except.error _ => (noteAlpha, emptyDB)

/-- The C1 update request: rewrite "Beta" to reference "Alpha". -/
def C1req : UpdateNoteRequest :=
  { title := none, content := some "see [[Alpha]]".data }

/-- The note and state returned by the C1 update. -/
def C1res : Note × DB :=
  match NoteSvc.update C1mk.2 1 C1mk.1.id C1req with
  | Except.ok p => p
  | Except.error _ => (noteAlpha, emptyDB)

theorem C1_update_rewires_links_witness :
    C1res.1.id = C1mk.1.id ∧
    (∀ l ∈ C1res.2.links, l.targetNoteId = C1mk.1.id →
      l.sourceNoteId = C1mk.1.id) ∧
    (∀ t, (∃ l ∈ C1res.2.links, l.sourceNoteId = C1mk.1.id ∧
        l.targetNoteId = t) ↔
      (∃ ref ∈ extractLinks C1res.1.content, ∃ tn,
        NoteRepo.findByTitle C1res.2 1 ref.title = some tn ∧ tn.id = t)) :=
  C1_update_rewires_links C1mk.2 1 C1mk.1.id C1req C1res.1 C1res.2
    (by decide) (by decide)
/-- C4: `ExtractLinks` returns, in occurrence order, one entry per
non-overlapping leftmost occurrence of `[[TITLE]]` / `[[TITLE|DISPLAY]]`
(`TITLE` nonempty without `]`/`|`, `DISPLAY` nonempty without `]`), with no
occurrence missed; each entry carries the trimmed title, the display
defaulting to the title, the match's start/end positions, and the trimmed
context window of 50 characters around the match clamped to the input; the
empty input yields the empty list. -/
theorem C4_extractLinks_correct (content : List Char) :
    extractLinks content = (findLinkMatches content).map (specLink content) ∧
    (∀ m ∈ findLinkMatches content, MatchWf content m) ∧
    (findLinkMatches content).Chain' (fun a b => a.stop ≤ b.start) ∧
    (∀ j, tryMatch (content.drop j) ≠ none →
      ∃ m ∈ findLinkMatches content, m.start ≤ j ∧ j < m.stop) ∧
    extractLinks [] = ([] : List ParsedLink) := by
  obtain ⟨h1, h2, h3⟩ := scanAux_spec content content.length content 0
    (by simp) (by simp)
  exact ⟨extractLinks_eq_map content,
    fun m hm => (h1 m hm).1, h2,
    fun j hne => h3 j (Nat.zero_le j) hne, rfl⟩
